import Mathlib

/-!
A verification development for `txfs`, a transactional filesystem cache layer.

The Rust sources (src/lib.rs, src/file.rs, src/dir.rs) are shallowly embedded:

* machine state is modelled with explicit pure data (association lists for
  directories and version stores, `Option` for fallible lookups);
* the external `txn_lock` crate (scalar lock and map lock) and the external
  `freqfs` cache are modelled from the semantics the specification states for
  them, since their code is not part of this repository;
* asynchronous operations are modelled as pure state transformers; recursive
  directory operations take an explicit fuel argument (the Rust recursion is
  structurally unbounded and heap-allocates its continuations), and theorems
  about them are stated for every fuel value on which they return a result;
* a Rust panic (an `expect` or `assert!` failure) is modelled as `none`.
-/

namespace Txfs

/-- Transaction identifiers: externally supplied, totally ordered. The spec
requires a string rendering that preserves the ordering, so the model uses the
ids themselves where the code compares a txn id with a file name. -/
abbrev TxnId := Nat

/-- Entry and file names (`hr_id::Id` rendered as a string). -/
abbrev Ident := String

/-- File contents as seen through the cache. -/
abbrev Bytes := List Nat

/-- Look a key up in an association list (first match). -/
def alookup {α β : Type} [DecidableEq α] (k : α) : List (α × β) → Option β
  | [] => none
  | p :: rest => if p.1 = k then some p.2 else alookup k rest

/-- Whether an association list has an entry for a key. -/
def ahas {α β : Type} [DecidableEq α] (k : α) (l : List (α × β)) : Bool :=
  (alookup k l).isSome

/-- Delete every entry at a key from an association list. -/
def aremove {α β : Type} [DecidableEq α] (k : α) (l : List (α × β)) : List (α × β) :=
  l.filter (fun p => decide (p.1 ≠ k))

/-- Set the value at a key: replace it in place when present, otherwise add it. -/
def aset {α β : Type} [DecidableEq α] (k : α) (v : β) (l : List (α × β)) : List (α × β) :=
  if ahas k l then l.map (fun p => if p.1 = k then (k, v) else p) else (k, v) :: l

/-- The keys of an association list. -/
def akeys {α β : Type} (l : List (α × β)) : List α := l.map Prod.fst

/-- The kind of error surfaced by a transactional filesystem operation
(src/lib.rs, `ErrorKind`): the enum has exactly the variants `NotFound`,
`Conflict` and `IO`. -/
inductive ErrorKind where
  | notFound
  | conflict
  | io
deriving DecidableEq, Fintype

/-- An error surfaced by a transactional filesystem operation
(src/lib.rs, `Error`): a kind plus the originating message. -/
structure Error where
  kind : ErrorKind
  message : String
deriving DecidableEq

/-- The `io::ErrorKind` values this crate constructs or inspects. -/
inductive IoErrorKind where
  | notFound
  | wouldBlock
  | alreadyExists
  | invalidData
  | other
deriving DecidableEq

/-- An error from the underlying filesystem layer. -/
structure IoError where
  kind : IoErrorKind
  message : String
deriving DecidableEq

/-- The conversion `From io::Error for Error` (src/lib.rs lines 48-61):
not-found maps to `NotFound`, would-block to `Conflict`, everything else to
`IO`; the message is carried over. -/
def Error.fromIo (e : IoError) : Error :=
  { kind :=
      match e.kind with
      | .notFound => ErrorKind.notFound
      | .wouldBlock => ErrorKind.conflict
      | _ => ErrorKind.io
    message := e.message }

/-- The errors of the external `txn_lock` crate that this crate surfaces. -/
inductive TxnLockError where
  | outdated
  | wouldBlock
deriving DecidableEq

/-- The display string of a `txn_lock` error. -/
def TxnLockError.render : TxnLockError → String
  | .outdated => "attempted to access an outdated transactional version"
  | .wouldBlock => "acquiring this transactional lock would block"

/-- The conversion `From txn_lock::Error for Error` (src/lib.rs lines 39-46):
every lock error maps to kind `Conflict`, carrying the message. -/
def Error.fromTxnLock (e : TxnLockError) : Error :=
  { kind := ErrorKind.conflict, message := e.render }

/-- Modelled from the spec (section 6, scalar lock interface; the `txn_lock`
crate is external to this repository): a scalar transactional lock with
committed versions, pending per-transaction versions, and a finalize
watermark. For `last_modified` the value type is itself a `TxnId`. -/
structure SLock where
  committed : List (TxnId × TxnId)
  pending : List (TxnId × TxnId)
  finalized : Option TxnId
deriving DecidableEq

/-- `TxnLock::new(txn_id)` with the initial value `txn_id` committed at the
creating transaction (src/file.rs uses it this way for `last_modified`). -/
def SLock.new (t : TxnId) : SLock := ⟨[(t, t)], [], none⟩

/-- Keep whichever of a candidate version and a previous best has the greater
txn id. -/
def pickLater (p : TxnId × TxnId) : Option (TxnId × TxnId) → TxnId × TxnId
  | none => p
  | some q => if q.1 < p.1 then p else q

/-- The committed version with the greatest txn id at most `t`. -/
def latestLE : List (TxnId × TxnId) → TxnId → Option (TxnId × TxnId)
  | [], _ => none
  | p :: rest, t =>
    if p.1 ≤ t then some (pickLater p (latestLE rest t)) else latestLE rest t

/-- The committed value visible at `t`. -/
def SLock.committedAt (l : SLock) (t : TxnId) : Option TxnId :=
  (latestLE l.committed t).map Prod.snd

/-- The value a read guard at `t` observes: the pending value of `t` when this
transaction wrote, otherwise the most recent committed value at or before `t`. -/
def SLock.valueAt (l : SLock) (t : TxnId) : Option TxnId :=
  match alookup t l.pending with
  | some v => some v
  | none => l.committedAt t

/-- Record a pending value at `t` (a write through the write guard). -/
def SLock.setPending (l : SLock) (t v : TxnId) : SLock :=
  { l with pending := aset t v l.pending }

/-- `read_and_commit(t)`: promote the pending version at `t`, if any, to a
committed version and return the value now visible at `t`. -/
def SLock.readAndCommit (l : SLock) (t : TxnId) : SLock × Option TxnId :=
  match alookup t l.pending with
  | some v =>
    let l' : SLock := { l with committed := aset t v l.committed, pending := aremove t l.pending }
    (l', l'.committedAt t)
  | none => (l, l.committedAt t)

/-- `read_and_rollback(t)`: discard the pending version at `t` and return the
prior committed value visible at `t`. -/
def SLock.readAndRollback (l : SLock) (t : TxnId) : SLock × Option TxnId :=
  ({ l with pending := aremove t l.pending }, l.committedAt t)

/-- `read_and_finalize(t)`: record the finalize watermark and drop pending
versions at or before `t`; returns the committed value at `t`, or `none` when
the lock was already finalized past `t`. -/
def SLock.readAndFinalize (l : SLock) (t : TxnId) : SLock × Option TxnId :=
  match l.finalized with
  | some f =>
    if t < f then (l, none)
    else
      ({ l with finalized := some t, pending := l.pending.filter (fun p => decide (t < p.1)) },
        l.committedAt t)
  | none =>
    ({ l with finalized := some t, pending := l.pending.filter (fun p => decide (t < p.1)) },
      l.committedAt t)

/-- A transactional file (src/file.rs, `File`): its last-modified lock, its
version files keyed by txn id (the directory `versions`), and the canonical
copy under its parent (`none` when no canonical copy exists). -/
structure FileState where
  lastModified : SLock
  versions : List (TxnId × Bytes)
  canon : Option Bytes
deriving DecidableEq

/-- `File::read` (src/file.rs lines 165-178): read `last_modified` at `txn_id`
and take an owned read guard on the version file named by the value read. -/
def FileState.read (s : FileState) (t : TxnId) : Except Error (TxnId × Bytes) :=
  match s.lastModified.valueAt t with
  | none => .error (Error.fromTxnLock .outdated)
  | some m =>
    match alookup m s.versions with
    | some b => .ok (m, b)
    | none => .error (Error.fromIo ⟨.notFound, "file not found"⟩)

/-- `File::write` (src/file.rs lines 190-216). The result pairs the file state
after the call with the outcome; the outer `Option` is `none` where the code
would panic (the `expect("version")` when the version at `txn_id` is missing).
On success the outcome carries the id of the version the write guard holds and
its bytes. -/
def FileState.write (s : FileState) (t : TxnId) :
    Option (FileState × Except Error (TxnId × Bytes)) :=
  match s.lastModified.valueAt t with
  | none => some (s, .error (Error.fromTxnLock .outdated))
  | some m =>
    if m < t then
      match alookup m s.versions with
      | none => some (s, .error (Error.fromIo ⟨.notFound, "file not found"⟩))
      | some b =>
        if ahas t s.versions then
          some ({ s with lastModified := s.lastModified.setPending t t },
            .error (Error.fromIo ⟨.alreadyExists, "version already exists"⟩))
        else
          some ({ s with lastModified := s.lastModified.setPending t t,
                         versions := aset t b s.versions },
            .ok (t, b))
    else if m = t then
      match alookup t s.versions with
      | some b => some (s, .ok (t, b))
      | none => none
    else
      some (s, .error (Error.fromTxnLock .outdated))

/-- The body of `File::commit` (src/file.rs lines 237-261) as an effect
description: the updated lock, and the version bytes copied into the canonical
file when this transaction modified the file. `none` where the code would
panic (no version file at `txn_id` although the committed value equals it). -/
def fileCommitCore (lock : SLock) (versions : List (TxnId × Bytes)) (t : TxnId) :
    Option (SLock × Option Bytes) :=
  let r := lock.readAndCommit t
  if r.2 = some t then
    match alookup t versions with
    | some b => some (r.1, some b)
    | none => none
  else
    some (r.1, none)

/-- The body of `File::rollback` (src/file.rs lines 263-270): the updated lock,
and whether the version file at `txn_id` is deleted. -/
def fileRollbackCore (lock : SLock) (t : TxnId) : SLock × Bool :=
  let r := lock.readAndRollback t
  (r.1, decide (r.2 = some t))

/-- The body of `File::finalize` (src/file.rs lines 272-286): the updated lock,
and the committed value `m` bounding the version files to delete, when
`read_and_finalize` yields one. -/
def fileFinalizeCore (lock : SLock) (t : TxnId) : SLock × Option TxnId :=
  lock.readAndFinalize t

/-- `File::commit` on a self-contained file state. -/
def FileState.commit (s : FileState) (t : TxnId) : Option FileState :=
  match fileCommitCore s.lastModified s.versions t with
  | none => none
  | some (lock', written) =>
    some { s with lastModified := lock',
                  canon := match written with | some b => some b | none => s.canon }

/-- `File::rollback` on a self-contained file state. -/
def FileState.rollback (s : FileState) (t : TxnId) : FileState :=
  let r := fileRollbackCore s.lastModified t
  { s with lastModified := r.1,
           versions := if r.2 then aremove t s.versions else s.versions }

/-- `File::finalize` on a self-contained file state: when `read_and_finalize`
yields a committed value `m`, delete every version file whose name, parsed as a
txn id, is at most `m`. -/
def FileState.finalize (s : FileState) (t : TxnId) : FileState :=
  let r := fileFinalizeCore s.lastModified t
  { s with lastModified := r.1,
           versions :=
             match r.2 with
             | some m => s.versions.filter (fun p => decide (m < p.1))
             | none => s.versions }

/-- A concrete file used by witnesses: one committed version at txn 1. -/
def fileEx : FileState := ⟨SLock.new 1, [(1, [7])], none⟩

/-- A concrete file used by witnesses: committed writers at txns 1 and 3. -/
def fileEx2 : FileState := ⟨⟨[(1, 1), (3, 3)], [], none⟩, [(1, [5]), (3, [6])], none⟩

/-- The name of the hidden directory holding un-committed file versions
(src/dir.rs, `VERSIONS`). -/
def VERSIONS : Ident := ".txfs"

/-- `name.starts_with('.')` on an identifier (src/dir.rs lines 147, 527 and
553): whether its first character is a dot. -/
def startsDot (s : Ident) : Bool :=
  match s.data with
  | [] => false
  | c :: _ => c = '.'

/-- A raw on-disk tree as the freqfs cache presents it: a file with its bytes,
or a directory with named children. -/
inductive DTree where
  | file : Bytes → DTree
  | dir : List (Ident × DTree) → DTree

/-- Whether a raw disk node is a file. -/
def DTree.isFile : DTree → Bool
  | .file _ => true
  | .dir _ => false

/-- Whether a raw disk node is a directory with no children. -/
def DTree.isEmptyDir : DTree → Bool
  | .file _ => false
  | .dir cs => cs.isEmpty

/-- The state of a transactional directory (src/dir.rs, `Dir`), parametric in
the entry type so that the entry type can recursively contain it.
`entriesC`, `entriesP`, `entriesR` and `entriesF` model the `txn_lock` MVCC
map (modelled from the spec, section 6, map lock interface: committed
contents, per-transaction deltas, per-transaction reservations taken through
the entry API, and the finalize watermark). `canon` holds the children of the
canonical directory other than `.txfs`; `txfs` holds the contents of
`canon/.txfs` (user file name to its version files); `txfsOnDisk` records
whether `canon/.txfs` currently exists on disk. -/
structure DirSt (E : Type) where
  entriesC : List (Ident × E)
  entriesP : List (TxnId × List (Ident × Option E))
  entriesR : List (TxnId × Ident)
  entriesF : Option TxnId
  canon : List (Ident × DTree)
  txfs : List (Ident × List (TxnId × Bytes))
  txfsOnDisk : Bool

/-- An entry in a `Dir` (src/dir.rs, `DirEntry`): a sub-directory or a file.
A file entry holds its last-modified lock; its version files are the per-file
version directory `txfs/<name>` of the parent, and its canonical copy is
`canon/<name>` of the parent. -/
inductive Entry where
  | file : SLock → Entry
  | dir : DirSt Entry → Entry

/-- The state of a transactional directory with its entries. -/
abbrev DirState := DirSt Entry

/-- Apply one recorded delta to a contents list: an insertion or a deletion. -/
def applyDelta (base : List (Ident × Entry)) (d : Ident × Option Entry) :
    List (Ident × Entry) :=
  match d.2 with
  | some e => aset d.1 e base
  | none => aremove d.1 base

/-- Apply a transaction's recorded deltas, oldest first. -/
def applyDeltas : List (Ident × Option Entry) → List (Ident × Entry) → List (Ident × Entry)
  | [], base => base
  | d :: rest, base => applyDeltas rest (applyDelta base d)

/-- The deltas a transaction has introduced in the entries map. -/
def DirSt.deltasAt (d : DirState) (t : TxnId) : List (Ident × Option Entry) :=
  (alookup t d.entriesP).getD []

/-- The map contents visible at `t`: the committed contents overlaid with this
transaction's deltas. Queries and iterators at `t` read exactly this list. -/
def DirSt.visible (d : DirState) (t : TxnId) : List (Ident × Entry) :=
  applyDeltas (d.deltasAt t) d.entriesC

/-- Record one delta at `t` (coalescing per key, as the map lock keeps at most
one pending value per key and transaction). -/
def DirSt.addDelta (d : DirState) (t : TxnId) (k : Ident) (v : Option Entry) : DirState :=
  { d with entriesP := aset t (aset k v (d.deltasAt t)) d.entriesP }

/-- Whether `entry(txn, key)` finds the slot occupied: the key is visible at
`t` or another caller holds a reservation on it at `t`. -/
def DirSt.occupied (d : DirState) (t : TxnId) (k : Ident) : Bool :=
  ahas k (d.visible t) || decide ((t, k) ∈ d.entriesR)

/-- Take the write reservation the vacant entry API hands out. -/
def DirSt.reserve (d : DirState) (t : TxnId) (k : Ident) : DirState :=
  { d with entriesR := (t, k) :: d.entriesR }

/-- Insert through a reservation: record the insertion delta and release the
reservation. -/
def DirSt.insertReserved (d : DirState) (t : TxnId) (k : Ident) (e : Entry) : DirState :=
  let d1 := d.addDelta t k (some e)
  { d1 with entriesR := d1.entriesR.filter (fun p => decide (p ≠ (t, k))) }

/-- `remove(txn, key)` on the map lock: record a deletion delta when the key
is visible at `t`; returns the removed entry. -/
def DirSt.mapRemove (d : DirState) (t : TxnId) (k : Ident) : DirState × Option Entry :=
  match alookup k (d.visible t) with
  | some e => (d.addDelta t k none, some e)
  | none => (d, none)

/-- `clear(txn)` on the map lock: record a deletion delta for every visible
key; returns the removed contents. -/
def DirSt.mapClear (d : DirState) (t : TxnId) : DirState × List (Ident × Entry) :=
  let vis := d.visible t
  (vis.foldl (fun acc p => acc.addDelta t p.1 none) d, vis)

/-- `read_and_commit(txn)` on the map lock: merge this transaction's deltas
into the committed contents; returns the committed contents and the deltas. -/
def DirSt.mapCommit (d : DirState) (t : TxnId) :
    DirState × List (Ident × Entry) × Option (List (Ident × Option Entry)) :=
  match alookup t d.entriesP with
  | some ds =>
    let c := applyDeltas ds d.entriesC
    ({ d with entriesC := c, entriesP := aremove t d.entriesP }, c, some ds)
  | none => (d, d.entriesC, none)

/-- `read_and_rollback(txn)` on the map lock: discard this transaction's
deltas; returns the committed contents. -/
def DirSt.mapRollback (d : DirState) (t : TxnId) : DirState × List (Ident × Entry) :=
  ({ d with entriesP := aremove t d.entriesP }, d.entriesC)

/-- `read_and_finalize(txn)` on the map lock: record the watermark and drop
per-transaction state at or before `t`; returns the surviving contents, or
`none` when the map was already finalized past `t`. -/
def DirSt.mapFinalize (d : DirState) (t : TxnId) : DirState × Option (List (Ident × Entry)) :=
  match d.entriesF with
  | some f =>
    if t < f then (d, none)
    else
      ({ d with entriesF := some t,
                entriesP := d.entriesP.filter (fun p => decide (t < p.1)),
                entriesR := d.entriesR.filter (fun p => decide (t < p.1)) },
        some d.entriesC)
  | none =>
    ({ d with entriesF := some t,
              entriesP := d.entriesP.filter (fun p => decide (t < p.1)),
              entriesR := d.entriesR.filter (fun p => decide (t < p.1)) },
      some d.entriesC)

mutual

/-- `Dir::load` (src/dir.rs lines 121-192) over the children of a canonical
directory: get or create `.txfs` and truncate it, then install every child
whose name does not start with a dot into a fresh map: sub-directories load
recursively, files get a per-file version directory holding a copy of the
canonical bytes at `txn_id`. -/
def dirLoad (t : TxnId) (children : List (Ident × DTree)) : DirState :=
  let loaded := loadChildren t children
  { entriesC := loaded.1
    entriesP := []
    entriesR := []
    entriesF := none
    canon := aremove VERSIONS children
    txfs := loaded.2
    txfsOnDisk := true }

/-- The iteration inside `Dir::load`: skip dotted names, load the rest. -/
def loadChildren (t : TxnId) :
    List (Ident × DTree) → List (Ident × Entry) × List (Ident × List (TxnId × Bytes))
  | [] => ([], [])
  | (name, node) :: rest =>
    let r := loadChildren t rest
    if startsDot name then r
    else
      match node with
      | .file b => ((name, .file (SLock.new t)) :: r.1, (name, [(t, b)]) :: r.2)
      | .dir cs => ((name, .dir (dirLoad t cs)) :: r.1, r.2)

end

/-- `Dir::create_dir` (src/dir.rs lines 203-223): fail AlreadyExists when the
slot is occupied at `txn_id`; otherwise reserve the slot, get or create the
canonical sub-directory, load it, and insert it through the reservation. The
result pairs the parent state after the call with the outcome. -/
def Dir.createDir (d : DirState) (t : TxnId) (name : Ident) :
    DirState × Except Error DirState :=
  if d.occupied t name then
    (d, .error (Error.fromIo ⟨.alreadyExists, "directory " ++ name⟩))
  else
    match alookup name d.canon with
    | some (.file _) =>
      (d, .error (Error.fromIo ⟨.other, "expected a directory but found a file: " ++ name⟩))
    | some (.dir cs) =>
      let child := dirLoad t cs
      let d1 := (d.reserve t name).insertReserved t name (.dir child)
      ({ d1 with canon := aset name (.dir cs) d1.canon }, .ok child)
    | none =>
      let child := dirLoad t []
      let d1 := (d.reserve t name).insertReserved t name (.dir child)
      ({ d1 with canon := aset name (.dir []) d1.canon }, .ok child)

/-- `Dir::create_file` (src/dir.rs lines 329-361): fail AlreadyExists when the
slot is occupied at `txn_id`; otherwise reserve the slot, get or create the
per-file version directory under `.txfs`, write the initial version at
`txn_id` through `File::create`, and insert the file through the reservation. -/
def Dir.createFile (d : DirState) (t : TxnId) (name : Ident) (contents : Bytes) :
    DirState × Except Error Entry :=
  if d.occupied t name then
    (d, .error (Error.fromIo ⟨.alreadyExists, "directory " ++ name⟩))
  else
    let vdir := (alookup name d.txfs).getD []
    if ahas t vdir then
      ({ d with txfs := aset name vdir d.txfs },
        .error (Error.fromIo ⟨.alreadyExists, "version already exists"⟩))
    else
      let lock := SLock.new t
      let d1 := (d.reserve t name).insertReserved t name (.file lock)
      ({ d1 with txfs := aset name (aset t contents vdir) d1.txfs }, .ok (.file lock))

mutual

/-- `Dir::truncate` (src/dir.rs lines 303-320) with explicit fuel: clear the
MVCC map at `txn_id` and recursively truncate every removed sub-directory.
Returns the parent state and the removed entries as their holders (clones
alias the same state) now observe them; `none` when the fuel runs out. -/
def dirTruncate : Nat → TxnId → DirState → Option (DirState × List (Ident × Entry))
  | 0, _, _ => none
  | fuel + 1, t, d =>
    let r := d.mapClear t
    match truncateRemoved fuel t r.2 with
    | some cleared => some (r.1, cleared)
    | none => none

/-- Truncate the sub-directories among a list of removed entries. -/
def truncateRemoved : Nat → TxnId → List (Ident × Entry) → Option (List (Ident × Entry))
  | 0, _, _ => none
  | fuel + 1, t, es =>
    match es with
    | [] => some []
    | (k, .file lock) :: rest =>
      (truncateRemoved fuel t rest).map (fun r => (k, .file lock) :: r)
    | (k, .dir c) :: rest =>
      match dirTruncate fuel t c with
      | some (c2, _) => (truncateRemoved fuel t rest).map (fun r => (k, .dir c2) :: r)
      | none => none

end

/-- `Dir::delete` (src/dir.rs lines 226-236): remove the entry at `name` from
the MVCC map at `txn_id`; when the removed entry is a sub-directory, truncate
it at `txn_id`. Returns the parent state, the removed entry as its holders
now observe it, and whether an entry was present. -/
def Dir.delete (fuel : Nat) (t : TxnId) (d : DirState) (name : Ident) :
    Option (DirState × Option Entry × Bool) :=
  let r := d.mapRemove t name
  match r.2 with
  | some (.dir c) =>
    match dirTruncate fuel t c with
    | some (c2, _) => some (r.1, some (.dir c2), true)
    | none => none
  | some (.file lock) => some (r.1, some (.file lock), true)
  | none => some (r.1, none, false)

/-- Whether the canonical directory currently holds a file at a name (the
`canon.get(..).is_file()` test driving `needs_sync` in `Dir::commit`). -/
def isFileAt (n : Ident) (canon : List (Ident × DTree)) : Bool :=
  match alookup n canon with
  | some node => node.isFile
  | none => false

/-- The deletion pass of `Dir::commit` (src/dir.rs lines 461-475): for every
delta recording a deletion, note whether `canon/<name>` is a file on disk and
remove it; `none` when the `assert!` that a deleted name is absent from the
committed contents fails. Returns the canonical children and whether a
removal found a file (the `needs_sync` flag). -/
def deleteDeltas : List (Ident × Option Entry) → List (Ident × Entry) →
    List (Ident × DTree) → Option (List (Ident × DTree) × Bool)
  | [], _, canon => some (canon, false)
  | (name, entryOpt) :: rest, contents, canon =>
    match entryOpt with
    | some _ => deleteDeltas rest contents canon
    | none =>
      if ahas name contents then none
      else
        (deleteDeltas rest contents (aremove name canon)).map
          (fun r => (r.1, isFileAt name canon || r.2))

mutual

/-- `Dir::commit` (src/dir.rs lines 432-482) with explicit fuel:
`read_and_commit` the entries map; when `recursive`, commit every committed
entry (sub-directories recursively, files as in `File::commit`); then delete
`canon/<name>` for every deletion delta and sync the canonical directory iff
one of those removals found a file. `none` where the code would panic or the
fuel runs out; the Bool reports whether the canonical directory was synced. -/
def dirCommit : Nat → TxnId → Bool → DirState → Option (DirState × Bool)
  | 0, _, _, _ => none
  | fuel + 1, t, recursive, d =>
    let r := d.mapCommit t
    (if recursive then commitChildren fuel t recursive r.2.1 r.1.txfs r.1.canon
     else some (r.2.1, r.1.canon)).bind (fun cc =>
      match r.2.2 with
      | none => some ({ r.1 with entriesC := cc.1, canon := cc.2 }, false)
      | some ds =>
        (deleteDeltas ds cc.1 cc.2).map
          (fun dd => ({ r.1 with entriesC := cc.1, canon := dd.1 }, dd.2)))

/-- Commit the children of a directory: file entries through the
`File::commit` body (which may copy a version into the canonical directory),
sub-directories recursively. -/
def commitChildren : Nat → TxnId → Bool → List (Ident × Entry) →
    List (Ident × List (TxnId × Bytes)) → List (Ident × DTree) →
    Option (List (Ident × Entry) × List (Ident × DTree))
  | 0, _, _, _, _, _ => none
  | fuel + 1, t, recursive, es, txfs, canon =>
    match es with
    | [] => some ([], canon)
    | (name, .file lock) :: rest =>
      (fileCommitCore lock ((alookup name txfs).getD []) t).bind (fun fc =>
        (commitChildren fuel t recursive rest txfs
            (match fc.2 with | some b => aset name (.file b) canon | none => canon)).map
          (fun r => ((name, .file fc.1) :: r.1, r.2)))
    | (name, .dir c) :: rest =>
      (dirCommit fuel t recursive c).bind (fun cr =>
        (commitChildren fuel t recursive rest txfs canon).map
          (fun r => ((name, .dir cr.1) :: r.1, r.2)))

end

mutual

/-- `Dir::rollback` (src/dir.rs lines 485-510) with explicit fuel:
`read_and_rollback` the entries map and, when `recursive`, roll back every
live child (file versions written at `txn_id` are deleted). -/
def dirRollback : Nat → TxnId → Bool → DirState → Option DirState
  | 0, _, _, _ => none
  | fuel + 1, t, recursive, d =>
    let r := d.mapRollback t
    if recursive then
      (rollbackChildren fuel t recursive r.2 r.1.txfs).map
        (fun rc => { r.1 with entriesC := rc.1, txfs := rc.2 })
    else
      some r.1

/-- Roll back the children of a directory. -/
def rollbackChildren : Nat → TxnId → Bool → List (Ident × Entry) →
    List (Ident × List (TxnId × Bytes)) →
    Option (List (Ident × Entry) × List (Ident × List (TxnId × Bytes)))
  | 0, _, _, _, _ => none
  | fuel + 1, t, recursive, es, txfs =>
    match es with
    | [] => some ([], txfs)
    | (name, .file lock) :: rest =>
      let r := fileRollbackCore lock t
      let txfs2 :=
        if r.2 then aset name (aremove t ((alookup name txfs).getD [])) txfs else txfs
      (rollbackChildren fuel t recursive rest txfs2).map
        (fun r2 => ((name, .file r.1) :: r2.1, r2.2))
    | (name, .dir c) :: rest =>
      (dirRollback fuel t recursive c).bind (fun c2 =>
        (rollbackChildren fuel t recursive rest txfs).map
          (fun r2 => ((name, .dir c2) :: r2.1, r2.2)))

end

/-- `Dir::finalize` (src/dir.rs lines 513-580): `read_and_finalize` the
entries map; when it yields the surviving entries, delete from `.txfs` every
empty version sub-directory whose name is not among them (hidden names
skipped), delete `.txfs` itself from the canonical directory when it became
empty, and delete from the canonical directory every empty sub-directory
whose name is not among them (hidden names skipped). The Bool reports whether
the canonical directory was synced, which happens iff a canonical deletion
occurred. This operation does not recurse into children and does not touch
non-empty version directories. -/
def Dir.finalize (d : DirState) (t : TxnId) : DirState × Bool :=
  let r := d.mapFinalize t
  match r.2 with
  | none => (r.1, false)
  | some entries =>
    let names := akeys entries
    let txfs2 := r.1.txfs.filter
      (fun p => decide (p.1 ∈ names) || startsDot p.1 || !p.2.isEmpty)
    let deleteVersions := txfs2.isEmpty
    let canonKeep := r.1.canon.filter
      (fun p => decide (p.1 ∈ names) || startsDot p.1 || !p.2.isEmptyDir)
    let syncFromCanon := r.1.canon.any
      (fun p => !(decide (p.1 ∈ names) || startsDot p.1) && p.2.isEmptyDir)
    ({ r.1 with txfs := txfs2, canon := canonKeep,
                txfsOnDisk := if deleteVersions then false else r.1.txfsOnDisk },
      syncFromCanon || deleteVersions)

/-- The value a key maps to after a run of deltas, given its value before:
the last delta for the key wins. -/
def lookupAfter {α : Type} (k : Ident) : List (Ident × Option α) → Option α → Option α
  | [], b => b
  | p :: rest, b => lookupAfter k rest (if p.1 = k then p.2 else b)

/-- The frame of an entry: everything except the MVCC map bookkeeping - the
file locks, and at every directory the canonical children, the `.txfs`
contents and the `.txfs` presence flag, recursively through the committed
entries. Operations that only mutate the MVCC maps leave it unchanged. -/
inductive FrameView where
  | file : SLock → FrameView
  | dir : List (Ident × DTree) → List (Ident × List (TxnId × Bytes)) → Bool →
      List (Ident × FrameView) → FrameView

mutual

/-- The frame of one entry. -/
def frameOfEntry : Entry → FrameView
  | .file lock => .file lock
  | .dir ⟨ec, _, _, _, c, v, o⟩ => .dir c v o (frameOfEntries ec)

/-- The frames of a list of entries. -/
def frameOfEntries : List (Ident × Entry) → List (Ident × FrameView)
  | [] => []
  | (k, e) :: rest => (k, frameOfEntry e) :: frameOfEntries rest

end

/-- The frame of a directory state. -/
def frameOfDir (d : DirState) : FrameView := frameOfEntry (.dir d)

mutual

/-- No name beginning with a dot occurs anywhere in the MVCC map state of an
entry: not among the committed entries, not in any recorded delta, not in any
reservation, recursively in every stored sub-directory. -/
def entryNoDot : Entry → Bool
  | .file _ => true
  | .dir ⟨ec, ep, er, _, _, _, _⟩ =>
    entriesNoDot ec && pendingNoDot ep && er.all (fun p => ! startsDot p.2)

/-- No dotted name in a committed-contents list, recursively. -/
def entriesNoDot : List (Ident × Entry) → Bool
  | [] => true
  | (k, e) :: rest => ! startsDot k && entryNoDot e && entriesNoDot rest

/-- No dotted name in any per-transaction delta list, recursively. -/
def pendingNoDot : List (TxnId × List (Ident × Option Entry)) → Bool
  | [] => true
  | (_, ds) :: rest => deltasNoDot ds && pendingNoDot rest

/-- No dotted name in a delta list, recursively. -/
def deltasNoDot : List (Ident × Option Entry) → Bool
  | [] => true
  | (k, v) :: rest =>
    ! startsDot k && (match v with | some e => entryNoDot e | none => true)
      && deltasNoDot rest

end

/-- No dotted name anywhere in the MVCC map state of a directory. -/
def dirNoDot (d : DirState) : Bool := entryNoDot (.dir d)

/-- Whether the keys of an association list are pairwise distinct. -/
def nodupKeys {α β : Type} [DecidableEq α] : List (α × β) → Bool
  | [] => true
  | p :: rest => ! ahas p.1 rest && nodupKeys rest

mutual

/-- Well-formedness of an entry, as the map and cache locks maintain it: at
every directory the committed contents, the canonical children and the
`.txfs` contents have pairwise distinct keys, recursively through stored
entries (committed and pending). -/
def entryWf : Entry → Bool
  | .file _ => true
  | .dir ⟨ec, ep, _, _, c, v, _⟩ =>
    nodupKeys ec && nodupKeys c && nodupKeys v && entriesWfL ec && pendingWfL ep

/-- Well-formedness of a committed-contents list. -/
def entriesWfL : List (Ident × Entry) → Bool
  | [] => true
  | (_, e) :: rest => entryWf e && entriesWfL rest

/-- Well-formedness of the per-transaction pending deltas. -/
def pendingWfL : List (TxnId × List (Ident × Option Entry)) → Bool
  | [] => true
  | (_, ds) :: rest => deltasWfL ds && pendingWfL rest

/-- Well-formedness of a delta list. -/
def deltasWfL : List (Ident × Option Entry) → Bool
  | [] => true
  | (_, v) :: rest =>
    (match v with | some e => entryWf e | none => true) && deltasWfL rest

end

/-- Well-formedness of a directory state. -/
def dirWf (d : DirState) : Bool := entryWf (.dir d)

/-- A concrete directory used by witnesses: one committed file entry `f` with
a canonical copy and one version file at txn 1. -/
def dirEx : DirState :=
  ⟨[("f", .file (SLock.new 1))], [], [], none,
    [("f", .file [7])], [("f", [(1, [7])])], true⟩

/-- The state of `dirEx` after its map is cleared at txn 1. -/
def dirExCleared : DirState :=
  ⟨[("f", .file (SLock.new 1))], [(1, [("f", none)])], [], none,
    [("f", .file [7])], [("f", [(1, [7])])], true⟩

/-- A concrete empty directory used by witnesses. -/
def dirEmptyEx : DirState := ⟨[], [], [], none, [], [], true⟩

/-- A concrete file used by witnesses: committed writers at txns 1 and 2 and
version files at txns 1, 2 and 3. -/
def fileEx3 : FileState :=
  ⟨⟨[(1, 1), (2, 2)], [], none⟩, [(1, [4]), (2, [5]), (3, [6])], none⟩

/-- A concrete directory whose file `f` has a pending write at txn 1 (no
entry delta), used to show a recursive commit rewrites `canon/f`. -/
def dirEx7 : DirState :=
  ⟨[("f", .file ⟨[(0, 0)], [(1, 1)], none⟩)], [], [], none,
    [("f", .file [7])], [("f", [(1, [9])])], true⟩

/-- A concrete directory with a deletion delta for `g` at txn 1 and a
canonical file `g` on disk. -/
def dirEx7b : DirState :=
  ⟨[], [(1, [("g", none)])], [], none, [("g", .file [3])], [], true⟩

/-- The error a create reports when the reserved name is occupied
(src/dir.rs lines 205-211 and 341-347). -/
def alreadyExistsErr (name : Ident) : Error :=
  Error.fromIo ⟨.alreadyExists, "directory " ++ name⟩

theorem alookup_mem {α β : Type} [DecidableEq α] {k : α} {v : β} :
    ∀ {l : List (α × β)}, alookup k l = some v → (k, v) ∈ l := by
  intro l
  induction l with
  | nil => intro h; simp [alookup] at h
  | cons p rest ih =>
    intro h
    rcases p with ⟨pk, pv⟩
    by_cases hp : pk = k
    · subst hp
      simp [alookup] at h
      simp [h]
    · simp only [alookup] at h
      rw [if_neg hp] at h
      exact List.mem_cons_of_mem _ (ih h)

theorem latestLE_none {t : TxnId} :
    ∀ {vs : List (TxnId × TxnId)}, latestLE vs t = none → ∀ q ∈ vs, ¬ q.1 ≤ t := by
  intro vs
  induction vs with
  | nil => intro _ q hq; simp at hq
  | cons hd rest ih =>
    intro h q hq
    simp only [latestLE] at h
    by_cases hhd : hd.1 ≤ t
    · rw [if_pos hhd] at h; cases h
    · rw [if_neg hhd] at h
      rcases List.mem_cons.mp hq with h1 | h2
      · subst h1; exact hhd
      · exact ih h q h2

theorem latestLE_spec {t : TxnId} :
    ∀ {vs : List (TxnId × TxnId)} {p : TxnId × TxnId}, latestLE vs t = some p →
      p ∈ vs ∧ p.1 ≤ t ∧ ∀ q ∈ vs, q.1 ≤ t → q.1 ≤ p.1 := by
  intro vs
  induction vs with
  | nil => intro p h; simp [latestLE] at h
  | cons hd rest ih =>
    intro p h
    simp only [latestLE] at h
    by_cases hhd : hd.1 ≤ t
    · rw [if_pos hhd] at h
      cases hr : latestLE rest t with
      | none =>
        rw [hr] at h
        simp only [pickLater, Option.some.injEq] at h
        subst h
        refine ⟨List.mem_cons_self _ _, hhd, ?_⟩
        intro q hq hqt
        rcases List.mem_cons.mp hq with h1 | h2
        · subst h1; exact le_refl _
        · exact absurd hqt (latestLE_none hr q h2)
      | some q2 =>
        rw [hr] at h
        obtain ⟨hmem, hle, hmax⟩ := ih hr
        simp only [pickLater, Option.some.injEq] at h
        by_cases hc : q2.1 < hd.1
        · rw [if_pos hc] at h
          subst h
          refine ⟨List.mem_cons_self _ _, hhd, ?_⟩
          intro q hq hqt
          rcases List.mem_cons.mp hq with h1 | h2
          · subst h1; exact le_refl _
          · exact le_trans (hmax q h2 hqt) (le_of_lt hc)
        · rw [if_neg hc] at h
          subst h
          refine ⟨List.mem_cons_of_mem _ hmem, hle, ?_⟩
          intro q hq hqt
          rcases List.mem_cons.mp hq with h1 | h2
          · subst h1; exact le_of_not_lt hc
          · exact hmax q h2 hqt
    · rw [if_neg hhd] at h
      obtain ⟨hmem, hle, hmax⟩ := ih h
      refine ⟨List.mem_cons_of_mem _ hmem, hle, ?_⟩
      intro q hq hqt
      rcases List.mem_cons.mp hq with h1 | h2
      · subst h1; exact absurd hqt hhd
      · exact hmax q h2 hqt

theorem ahas_false_alookup {α β : Type} [DecidableEq α] {k : α} {l : List (α × β)}
    (h : ahas k l = false) : alookup k l = none := by
  unfold ahas at h
  cases hl : alookup k l
  · rfl
  · rw [hl] at h; simp at h

theorem alookup_map_replace_self {α β : Type} [DecidableEq α] {k : α} {v : β} :
    ∀ {l : List (α × β)}, ahas k l = true →
      alookup k (l.map (fun p => if p.1 = k then (k, v) else p)) = some v := by
  intro l
  induction l with
  | nil => intro h; simp [ahas, alookup] at h
  | cons p rest ih =>
    intro h
    rcases p with ⟨k1, v1⟩
    by_cases h1 : k1 = k
    · subst h1
      simp [alookup]
    · have h2 : ahas k rest = true := by
        simpa [ahas, alookup, h1] using h
      simp only [List.map_cons]
      simp only [alookup, h1, if_false, if_neg h1]
      exact ih h2

theorem alookup_map_replace_ne {α β : Type} [DecidableEq α] {k k' : α} {v : β} (h : k' ≠ k) :
    ∀ {l : List (α × β)},
      alookup k' (l.map (fun p => if p.1 = k then (k, v) else p)) = alookup k' l := by
  intro l
  induction l with
  | nil => simp
  | cons p rest ih =>
    rcases p with ⟨k1, v1⟩
    by_cases h1 : k1 = k
    · subst h1
      simp [alookup, Ne.symm h, ih]
    · simp only [List.map_cons, if_neg h1]
      simp only [alookup]
      by_cases h2 : k1 = k'
      · simp [h2]
      · simp only [if_neg h2]
        exact ih

theorem alookup_aset_self {α β : Type} [DecidableEq α] (k : α) (v : β) (l : List (α × β)) :
    alookup k (aset k v l) = some v := by
  unfold aset
  by_cases hh : ahas k l
  · rw [if_pos hh]
    exact alookup_map_replace_self hh
  · rw [if_neg hh]
    simp [alookup]

theorem alookup_aset_ne {α β : Type} [DecidableEq α] {k k' : α} (v : β) (l : List (α × β))
    (h : k' ≠ k) : alookup k' (aset k v l) = alookup k' l := by
  unfold aset
  by_cases hh : ahas k l
  · rw [if_pos hh]
    exact alookup_map_replace_ne h
  · rw [if_neg hh]
    simp [alookup, Ne.symm h]

theorem alookup_aremove_self {α β : Type} [DecidableEq α] (k : α) (l : List (α × β)) :
    alookup k (aremove k l) = none := by
  induction l with
  | nil => rfl
  | cons p rest ih =>
    rcases p with ⟨k1, v1⟩
    by_cases h1 : k1 = k
    · subst h1
      simpa [aremove] using ih
    · simpa [aremove, alookup, h1] using ih

theorem alookup_aremove_ne {α β : Type} [DecidableEq α] {k k' : α} (l : List (α × β))
    (h : k' ≠ k) : alookup k' (aremove k l) = alookup k' l := by
  induction l with
  | nil => rfl
  | cons p rest ih =>
    rcases p with ⟨k1, v1⟩
    by_cases h1 : k1 = k
    · subst h1
      have hrm : aremove k1 ((k1, v1) :: rest) = aremove k1 rest := by
        simp [aremove]
      rw [hrm, ih]
      simp [alookup, Ne.symm h]
    · have hrm : aremove k ((k1, v1) :: rest) = (k1, v1) :: aremove k rest := by
        simp [aremove, h1]
      rw [hrm]
      simp only [alookup]
      by_cases h2 : k1 = k'
      · simp [h2]
      · simp only [if_neg h2]
        exact ih

theorem aremove_idem {α β : Type} [DecidableEq α] (k : α) (l : List (α × β)) :
    aremove k (aremove k l) = aremove k l := by
  simp [aremove, List.filter_filter]

theorem filter_idem {α : Type} (p : α → Bool) (l : List α) :
    (l.filter p).filter p = l.filter p := by
  simp [List.filter_filter]

theorem lookupAfter_not_has {α : Type} {k : Ident} :
    ∀ {ds : List (Ident × Option α)}, ahas k ds = false → ∀ b, lookupAfter k ds b = b := by
  intro ds
  induction ds with
  | nil => intro _ b; rfl
  | cons p rest ih =>
    intro h b
    rcases p with ⟨k1, v1⟩
    by_cases h1 : k1 = k
    · subst h1; simp [ahas, alookup] at h
    · have h2 : ahas k rest = false := by
        simpa [ahas, alookup, h1] using h
      simp only [lookupAfter, if_neg h1]
      exact ih h2 b

theorem lookupAfter_map_replace {α : Type} {k : Ident} {v : Option α} :
    ∀ (ds : List (Ident × Option α)) (b : Option α),
      lookupAfter k (ds.map (fun p => if p.1 = k then (k, v) else p)) b
        = if ahas k ds then v else b := by
  intro ds
  induction ds with
  | nil => intro b; simp [lookupAfter, ahas, alookup]
  | cons p rest ih =>
    intro b
    rcases p with ⟨k1, v1⟩
    by_cases h1 : k1 = k
    · subst h1
      have hcons : ahas k1 ((k1, v1) :: rest) = true := by simp [ahas, alookup]
      simp only [List.map_cons]
      simp only [if_true]
      simp only [lookupAfter]
      simp only [if_true]
      rw [ih v, hcons]
      by_cases h2 : ahas k1 rest <;> simp [h2]
    · have hcons : ahas k ((k1, v1) :: rest) = ahas k rest := by
        simp [ahas, alookup, h1]
      simp only [List.map_cons, if_neg h1, lookupAfter, hcons]
      exact ih b

theorem lookupAfter_map_replace_ne {α : Type} {k k' : Ident} {v : Option α} (h : k' ≠ k) :
    ∀ (ds : List (Ident × Option α)) (b : Option α),
      lookupAfter k' (ds.map (fun p => if p.1 = k then (k, v) else p)) b
        = lookupAfter k' ds b := by
  intro ds
  induction ds with
  | nil => intro b; rfl
  | cons p rest ih =>
    intro b
    rcases p with ⟨k1, v1⟩
    by_cases h1 : k1 = k
    · subst h1
      simp only [List.map_cons]
      simp only [if_true]
      simp only [lookupAfter, if_neg (Ne.symm h)]
      exact ih b
    · simp only [List.map_cons, if_neg h1, lookupAfter]
      exact ih _

theorem lookupAfter_aset_self {α : Type} (k : Ident) (v : Option α)
    (ds : List (Ident × Option α)) (b : Option α) :
    lookupAfter k (aset k v ds) b = v := by
  unfold aset
  cases hh : ahas k ds
  · simp only [hh, Bool.false_eq_true, if_false]
    simp only [lookupAfter]
    simp only [if_true]
    exact lookupAfter_not_has hh v
  · simp only [hh, if_true]
    rw [lookupAfter_map_replace, hh]
    simp

theorem lookupAfter_aset_ne {α : Type} {k k' : Ident} (v : Option α)
    (ds : List (Ident × Option α)) (b : Option α) (h : k' ≠ k) :
    lookupAfter k' (aset k v ds) b = lookupAfter k' ds b := by
  unfold aset
  cases hh : ahas k ds
  · simp only [hh, Bool.false_eq_true, if_false]
    simp only [lookupAfter, if_neg (Ne.symm h)]
  · simp only [hh, if_true]
    rw [lookupAfter_map_replace_ne h]

theorem alookup_applyDelta (k : Ident) (base : List (Ident × Entry))
    (d : Ident × Option Entry) :
    alookup k (applyDelta base d) = if d.1 = k then d.2 else alookup k base := by
  rcases d with ⟨k1, v1⟩
  cases v1 with
  | some e =>
    simp only [applyDelta]
    by_cases h1 : k1 = k
    · subst h1; simp [alookup_aset_self]
    · simp [h1, alookup_aset_ne _ _ (Ne.symm h1)]
  | none =>
    simp only [applyDelta]
    by_cases h1 : k1 = k
    · subst h1; simp [alookup_aremove_self]
    · simp [h1, alookup_aremove_ne _ (Ne.symm h1)]

theorem alookup_applyDeltas (k : Ident) :
    ∀ (ds : List (Ident × Option Entry)) (base : List (Ident × Entry)),
      alookup k (applyDeltas ds base) = lookupAfter k ds (alookup k base) := by
  intro ds
  induction ds with
  | nil => intro base; rfl
  | cons d rest ih =>
    intro base
    simp only [applyDeltas, lookupAfter]
    rw [ih, alookup_applyDelta]

theorem deltasAt_addDelta_self (d : DirState) (t : TxnId) (k : Ident) (v : Option Entry) :
    (d.addDelta t k v).deltasAt t = aset k v (d.deltasAt t) := by
  unfold DirSt.addDelta DirSt.deltasAt
  simp [alookup_aset_self]

theorem addDelta_entriesC (d : DirState) (t : TxnId) (k : Ident) (v : Option Entry) :
    (d.addDelta t k v).entriesC = d.entriesC := rfl

theorem visible_addDelta_self (d : DirState) (t : TxnId) (k : Ident) (v : Option Entry) :
    alookup k ((d.addDelta t k v).visible t) = v := by
  unfold DirSt.visible
  rw [deltasAt_addDelta_self, addDelta_entriesC, alookup_applyDeltas,
    lookupAfter_aset_self]

theorem visible_addDelta_ne (d : DirState) (t : TxnId) {k k' : Ident} (v : Option Entry)
    (h : k' ≠ k) :
    alookup k' ((d.addDelta t k v).visible t) = alookup k' (d.visible t) := by
  unfold DirSt.visible
  rw [deltasAt_addDelta_self, addDelta_entriesC, alookup_applyDeltas,
    lookupAfter_aset_ne _ _ _ h, ← alookup_applyDeltas]

/-- C1: `File::write(txn)` compares `txn` with the current `last_modified`
value `m` and behaves in exactly three cases. When `m < txn` it copies the
bytes of `versions/<m>` into a newly created `versions/<txn>`, advances
`last_modified` to `txn`, and returns a write guard on the new version; when
`m = txn` it returns a write guard on the existing `versions/<txn>`; when
`m > txn` it fails with the Outdated error. -/
theorem file_write_three_cases (s : FileState) (t m : TxnId)
    (hm : s.lastModified.valueAt t = some m) :
    (m < t → ∀ b, alookup m s.versions = some b → ahas t s.versions = false →
      s.write t = some ({ s with lastModified := s.lastModified.setPending t t,
                                 versions := aset t b s.versions }, .ok (t, b)))
    ∧ (m = t → ∀ b, alookup t s.versions = some b → s.write t = some (s, .ok (t, b)))
    ∧ (t < m → s.write t = some (s, .error (Error.fromTxnLock .outdated))) := by
  refine ⟨?_, ?_, ?_⟩
  · intro hlt b hb hhas
    simp [FileState.write, hm, hlt, hb, hhas]
  · intro heq b hb
    subst heq
    simp [FileState.write, hm, hb]
  · intro hgt
    have h1 : ¬ m < t := Nat.lt_asymm hgt
    have h2 : ¬ m = t := Nat.ne_of_gt hgt
    simp [FileState.write, hm, h1, h2]

/-- Witness for C1 at a concrete file: a write at txn 2 over a version
committed at txn 1 copies the bytes, advances the lock, and locks the new
version. -/
theorem file_write_three_cases_witness :
    fileEx.write 2 =
      some (⟨⟨[(1, 1)], [(2, 2)], none⟩, [(2, [7]), (1, [7])], none⟩, .ok (2, [7])) :=
  (file_write_three_cases fileEx 2 1 rfl).1 (by decide) [7] rfl rfl

/-- C2: a successful `File::read(txn)` returns a read guard on the version
file `versions/<m>` where `m` is the value read from `last_modified` at
`txn`: `txn` itself when this transaction has a pending write, otherwise the
largest committed writer id at most `txn`. -/
theorem file_read_effective_version (s : FileState) (t m : TxnId) (b : Bytes)
    (hwfc : ∀ p ∈ s.lastModified.committed, p.2 = p.1)
    (hwfp : ∀ p ∈ s.lastModified.pending, p.2 = p.1)
    (h : s.read t = .ok (m, b)) :
    alookup m s.versions = some b
    ∧ (ahas t s.lastModified.pending = true → m = t)
    ∧ (ahas t s.lastModified.pending = false →
        (m, m) ∈ s.lastModified.committed ∧ m ≤ t ∧
        ∀ q ∈ s.lastModified.committed, q.1 ≤ t → q.1 ≤ m) := by
  have hval : s.lastModified.valueAt t = some m ∧ alookup m s.versions = some b := by
    unfold FileState.read at h
    split at h
    · exact Except.noConfusion h
    · rename_i m2 hv2
      split at h
      · rename_i b2 hb2
        simp only [Except.ok.injEq, Prod.mk.injEq] at h
        obtain ⟨hm2, hb2e⟩ := h
        subst hm2; subst hb2e
        exact ⟨hv2, hb2⟩
      · exact Except.noConfusion h
  obtain ⟨hv, hvers⟩ := hval
  refine ⟨hvers, ?_, ?_⟩
  · intro hpend
    unfold SLock.valueAt at hv
    split at hv
    · rename_i v hp
      simp only [Option.some.injEq] at hv
      have hvt : v = t := hwfp (t, v) (alookup_mem hp)
      rw [← hv, hvt]
    · rename_i hp
      simp [ahas, hp] at hpend
  · intro hnopend
    unfold SLock.valueAt at hv
    split at hv
    · rename_i v hp
      simp [ahas, hp] at hnopend
    · rename_i hp
      unfold SLock.committedAt at hv
      cases hl : latestLE s.lastModified.committed t with
      | none => rw [hl] at hv; cases hv
      | some p =>
        rw [hl] at hv
        simp only [Option.map_some', Option.some.injEq] at hv
        obtain ⟨hmem, hle, hmax⟩ := latestLE_spec hl
        have hpp : p.2 = p.1 := hwfc p hmem
        rcases p with ⟨p1, p2⟩
        simp only at hpp hle hmax hv
        subst hpp
        subst hv
        exact ⟨hmem, hle, hmax⟩

/-- Witness for C2 at a concrete file: with committed writers 1 and 3 and no
pending write, a read at txn 2 observes version 1. -/
theorem file_read_effective_version_witness :
    alookup 1 fileEx2.versions = some [5]
    ∧ (ahas 2 fileEx2.lastModified.pending = false →
        (1, 1) ∈ fileEx2.lastModified.committed ∧ 1 ≤ 2 ∧
        ∀ q ∈ fileEx2.lastModified.committed, q.1 ≤ 2 → q.1 ≤ 1) :=
  ⟨(file_read_effective_version fileEx2 2 1 [5] (by decide) (by decide) rfl).1,
   (file_read_effective_version fileEx2 2 1 [5] (by decide) (by decide) rfl).2.2⟩

/-- Counterexample for C3 as stated: the error taxonomy of the code is a
closed sum of exactly three kinds, not four; there is no `Parse` kind. -/
theorem error_kind_card_three :
    Fintype.card ErrorKind = 3
    ∧ ∀ k : ErrorKind, k = .notFound ∨ k = .conflict ∨ k = .io := by
  constructor
  · rfl
  · intro k; cases k <;> simp

/-- C3 (amended): every surfaced error has a kind drawn from a closed sum of
exactly three kinds, `NotFound`, `Conflict` and `IO`, and carries the
originating message; each of the three kinds is producible. -/
theorem error_kinds_closed_and_producible :
    Fintype.card ErrorKind = 3
    ∧ (∀ e : IoError, (Error.fromIo e).message = e.message)
    ∧ (∀ e : TxnLockError,
        (Error.fromTxnLock e).kind = .conflict ∧ (Error.fromTxnLock e).message = e.render)
    ∧ (∀ m, (Error.fromIo ⟨.notFound, m⟩).kind = .notFound)
    ∧ (∀ m, (Error.fromIo ⟨.wouldBlock, m⟩).kind = .conflict)
    ∧ (∀ m, (Error.fromIo ⟨.other, m⟩).kind = .io) := by
  refine ⟨rfl, fun e => rfl, fun e => ⟨rfl, rfl⟩, fun m => rfl, fun m => rfl, fun m => rfl⟩

theorem ahas_cons {α β : Type} [DecidableEq α] (k : α) (p : α × β) (rest : List (α × β)) :
    ahas k (p :: rest) = (decide (p.1 = k) || ahas k rest) := by
  unfold ahas
  simp only [alookup]
  by_cases h : p.1 = k <;> simp [h]

theorem ahas_true_of_lookup {α β : Type} [DecidableEq α] {k : α} {v : β} {l : List (α × β)}
    (h : alookup k l = some v) : ahas k l = true := by
  unfold ahas
  rw [h]
  rfl

theorem foldl_addDelta_fields (t : TxnId) :
    ∀ (ks : List (Ident × Entry)) (d : DirState),
      (ks.foldl (fun acc p => acc.addDelta t p.1 none) d).entriesC = d.entriesC
      ∧ (ks.foldl (fun acc p => acc.addDelta t p.1 none) d).canon = d.canon
      ∧ (ks.foldl (fun acc p => acc.addDelta t p.1 none) d).txfs = d.txfs
      ∧ (ks.foldl (fun acc p => acc.addDelta t p.1 none) d).txfsOnDisk = d.txfsOnDisk := by
  intro ks
  induction ks with
  | nil => intro d; exact ⟨rfl, rfl, rfl, rfl⟩
  | cons p rest ih =>
    intro d
    simp only [List.foldl_cons]
    exact ih (d.addDelta t p.1 none)

theorem foldl_addDelta_visible (t : TxnId) :
    ∀ (ks : List (Ident × Entry)) (d : DirState) (k : Ident),
      alookup k ((ks.foldl (fun acc p => acc.addDelta t p.1 none) d).visible t)
        = if ahas k ks then none else alookup k (d.visible t) := by
  intro ks
  induction ks with
  | nil => intro d k; simp [ahas, alookup]
  | cons p rest ih =>
    intro d k
    simp only [List.foldl_cons]
    rw [ih, ahas_cons]
    by_cases h2 : ahas k rest = true
    · simp [h2]
    · have h2f : ahas k rest = false := by
        cases hc : ahas k rest
        · rfl
        · exact absurd hc h2
      by_cases hpk : p.1 = k
      · subst hpk
        simp [h2f, visible_addDelta_self]
      · simp [h2f, hpk, visible_addDelta_ne d t none (Ne.symm hpk)]

theorem mapClear_visible (d : DirState) (t : TxnId) (k : Ident) :
    alookup k ((d.mapClear t).1.visible t) = none := by
  unfold DirSt.mapClear
  simp only
  rw [foldl_addDelta_visible]
  cases hh : ahas k (d.visible t)
  · simp only [Bool.false_eq_true, if_false]
    exact ahas_false_alookup hh
  · simp

theorem mapClear_snd (d : DirState) (t : TxnId) : (d.mapClear t).2 = d.visible t := rfl

theorem frameOfDir_eq_of_fields {d d' : DirState}
    (h1 : d'.entriesC = d.entriesC) (h2 : d'.canon = d.canon)
    (h3 : d'.txfs = d.txfs) (h4 : d'.txfsOnDisk = d.txfsOnDisk) :
    frameOfDir d' = frameOfDir d := by
  rcases d with ⟨ec, ep, er, ef, c, v, o⟩
  rcases d' with ⟨ec', ep', er', ef', c', v', o'⟩
  simp only at h1 h2 h3 h4
  subst h1; subst h2; subst h3; subst h4
  rfl

theorem mapClear_frame (d : DirState) (t : TxnId) :
    frameOfDir (d.mapClear t).1 = frameOfDir d := by
  have hf := foldl_addDelta_fields t (d.visible t) d
  exact frameOfDir_eq_of_fields hf.1 hf.2.1 hf.2.2.1 hf.2.2.2

theorem truncate_aux (fuel : Nat) (t : TxnId) :
    (∀ d d' cleared, dirTruncate fuel t d = some (d', cleared) →
      frameOfDir d' = frameOfDir d
      ∧ (∀ k, alookup k (d'.visible t) = none)
      ∧ frameOfEntries cleared = frameOfEntries (d.visible t))
    ∧ (∀ es es', truncateRemoved fuel t es = some es' →
      frameOfEntries es' = frameOfEntries es) := by
  induction fuel with
  | zero =>
    constructor
    · intro d d' cleared h; simp [dirTruncate] at h
    · intro es es' h; simp [truncateRemoved] at h
  | succ fuel ih =>
    constructor
    · intro d d' cleared h
      simp only [dirTruncate] at h
      cases htr : truncateRemoved fuel t (d.mapClear t).2 with
      | none => rw [htr] at h; cases h
      | some cleared2 =>
        rw [htr] at h
        simp only [Option.some.injEq, Prod.mk.injEq] at h
        obtain ⟨hd', hcl⟩ := h
        subst hd'; subst hcl
        refine ⟨mapClear_frame d t, fun k => mapClear_visible d t k, ?_⟩
        rw [ih.2 _ _ htr, mapClear_snd]
    · intro es es' h
      cases es with
      | nil =>
        rw [show truncateRemoved (fuel + 1) t ([] : List (Ident × Entry)) = some [] from rfl] at h
        simp only [Option.some.injEq] at h
        subst h
        rfl
      | cons p rest =>
        rcases p with ⟨k, e⟩
        cases e with
        | file lock =>
          rw [show truncateRemoved (fuel + 1) t ((k, Entry.file lock) :: rest)
              = (truncateRemoved fuel t rest).map (fun r => (k, Entry.file lock) :: r)
            from rfl] at h
          cases hr : truncateRemoved fuel t rest with
          | none => rw [hr] at h; cases h
          | some r =>
            rw [hr] at h
            simp only [Option.map_some', Option.some.injEq] at h
            subst h
            simp only [frameOfEntries]
            rw [ih.2 _ _ hr]
        | dir c =>
          rw [show truncateRemoved (fuel + 1) t ((k, Entry.dir c) :: rest)
              = (match dirTruncate fuel t c with
                 | some (c2, _) =>
                   (truncateRemoved fuel t rest).map (fun r => (k, Entry.dir c2) :: r)
                 | none => none)
            from rfl] at h
          cases hc : dirTruncate fuel t c with
          | none => rw [hc] at h; cases h
          | some pr =>
            rcases pr with ⟨c2, cl2⟩
            rw [hc] at h
            cases hr : truncateRemoved fuel t rest with
            | none => rw [hr] at h; cases h
            | some r =>
              rw [hr] at h
              simp only [Option.map_some', Option.some.injEq] at h
              subst h
              simp only [frameOfEntries]
              rw [ih.2 _ _ hr]
              have hframe : frameOfEntry (.dir c2) = frameOfEntry (.dir c) :=
                (ih.1 c c2 cl2 hc).1
              rw [hframe]

/-- C10: `Dir::truncate(txn)` mutates only the MVCC entries maps of the
directory and of the removed descendant directories: the frame (canonical
children, `.txfs` contents and presence, and every file lock, recursively) of
the directory is unchanged, the map visible at `txn` becomes empty, and the
frames of the removed (recursively truncated) entries equal the frames of the
entries that were visible; no canonical file, canonical directory, or version
file on disk is deleted or written. -/
theorem dir_truncate_frame_only (fuel : Nat) (t : TxnId) (d d' : DirState)
    (cleared : List (Ident × Entry)) (h : dirTruncate fuel t d = some (d', cleared)) :
    frameOfDir d' = frameOfDir d
    ∧ (∀ k, alookup k (d'.visible t) = none)
    ∧ frameOfEntries cleared = frameOfEntries (d.visible t) :=
  (truncate_aux fuel t).1 d d' cleared h

/-- Witness for C10 at a concrete directory: truncating a directory with one
committed file leaves its disk frame untouched and empties the map at txn 1. -/
theorem dir_truncate_frame_only_witness :
    frameOfDir dirExCleared = frameOfDir dirEx
    ∧ (∀ k, alookup k (dirExCleared.visible 1) = none)
    ∧ frameOfEntries [("f", .file (SLock.new 1))] = frameOfEntries (dirEx.visible 1) :=
  dir_truncate_frame_only 3 1 dirEx dirExCleared [("f", .file (SLock.new 1))] rfl

/-- C6: `Dir::delete(txn, name)` removes the entry from the MVCC map at `txn`
(the name becomes absent at `txn`, every other name is unchanged), returns
true exactly when an entry was present, recursively truncates the removed
entry at `txn` when it is a sub-directory, and removes no canonical file from
disk: the frame of the directory and the frame of the removed entry are
unchanged. -/
theorem dir_delete_spec (fuel : Nat) (t : TxnId) (d : DirState) (name : Ident)
    (d' : DirState) (removed : Option Entry) (present : Bool)
    (h : Dir.delete fuel t d name = some (d', removed, present)) :
    present = ahas name (d.visible t)
    ∧ alookup name (d'.visible t) = none
    ∧ (∀ k, k ≠ name → alookup k (d'.visible t) = alookup k (d.visible t))
    ∧ frameOfDir d' = frameOfDir d
    ∧ (present = false → d' = d ∧ removed = none)
    ∧ (∀ e, alookup name (d.visible t) = some e →
        ∃ e', removed = some e' ∧ frameOfEntry e' = frameOfEntry e
          ∧ ∀ c, e = .dir c → ∃ c', e' = .dir c' ∧ ∀ k, alookup k (c'.visible t) = none) := by
  cases hv : alookup name (d.visible t) with
  | none =>
    have hD : Dir.delete fuel t d name = some (d, none, false) := by
      unfold Dir.delete DirSt.mapRemove
      rw [hv]
    rw [hD] at h
    simp only [Option.some.injEq, Prod.mk.injEq] at h
    obtain ⟨h1, h2, h3⟩ := h
    subst h1; subst h2; subst h3
    refine ⟨?_, ?_, fun k _ => rfl, rfl, fun _ => ⟨rfl, rfl⟩, ?_⟩
    · unfold ahas; rw [hv]; rfl
    · exact hv
    · intro e he; exact Option.noConfusion he
  | some e =>
    have hahas : ahas name (d.visible t) = true := ahas_true_of_lookup hv
    cases e with
    | file lock =>
      have hD : Dir.delete fuel t d name
          = some (d.addDelta t name none, some (.file lock), true) := by
        unfold Dir.delete DirSt.mapRemove
        rw [hv]
      rw [hD] at h
      simp only [Option.some.injEq, Prod.mk.injEq] at h
      obtain ⟨h1, h2, h3⟩ := h
      subst h1; subst h2; subst h3
      refine ⟨hahas.symm, visible_addDelta_self d t name none, ?_, ?_, ?_, ?_⟩
      · intro k hk
        exact visible_addDelta_ne d t none hk
      · exact frameOfDir_eq_of_fields rfl rfl rfl rfl
      · intro hcontra; cases hcontra
      · intro e2 he2
        injection he2 with he2e
        subst he2e
        exact ⟨.file lock, rfl, rfl, fun c hc => Entry.noConfusion hc⟩
    | dir c =>
      cases htc : dirTruncate fuel t c with
      | none =>
        have hD : Dir.delete fuel t d name = none := by
          unfold Dir.delete DirSt.mapRemove
          rw [hv]
          simp [htc]
        rw [hD] at h
        exact Option.noConfusion h
      | some pr =>
        rcases pr with ⟨c2, cl2⟩
        have hD : Dir.delete fuel t d name
            = some (d.addDelta t name none, some (.dir c2), true) := by
          unfold Dir.delete DirSt.mapRemove
          rw [hv]
          simp [htc]
        rw [hD] at h
        simp only [Option.some.injEq, Prod.mk.injEq] at h
        obtain ⟨h1, h2, h3⟩ := h
        subst h1; subst h2; subst h3
        obtain ⟨hcf, hcv, _⟩ := (truncate_aux fuel t).1 c c2 cl2 htc
        refine ⟨hahas.symm, visible_addDelta_self d t name none, ?_, ?_, ?_, ?_⟩
        · intro k hk
          exact visible_addDelta_ne d t none hk
        · exact frameOfDir_eq_of_fields rfl rfl rfl rfl
        · intro hcontra; cases hcontra
        · intro e2 he2
          injection he2 with he2e
          subst he2e
          refine ⟨.dir c2, rfl, hcf, ?_⟩
          intro c3 hc3
          injection hc3 with hc3e
          subst hc3e
          exact ⟨c2, rfl, hcv⟩

/-- Witness for C6 at a concrete directory: deleting the file entry `f` at
txn 1 reports it was present and empties the slot. -/
theorem dir_delete_spec_witness :
    true = ahas "f" (dirEx.visible 1)
    ∧ alookup "f" ((dirEx.addDelta 1 "f" none).visible 1) = none :=
  ⟨(dir_delete_spec 2 1 dirEx "f" (dirEx.addDelta 1 "f" none)
      (some (.file (SLock.new 1))) true rfl).1,
   (dir_delete_spec 2 1 dirEx "f" (dirEx.addDelta 1 "f" none)
      (some (.file (SLock.new 1))) true rfl).2.1⟩

theorem occupied_of_visible {d : DirState} {t : TxnId} {k : Ident} {e : Entry}
    (h : alookup k (d.visible t) = some e) : d.occupied t k = true := by
  unfold DirSt.occupied
  rw [ahas_true_of_lookup h]
  rfl

theorem createDir_occupied {d : DirState} {t : TxnId} {name : Ident}
    (h : d.occupied t name = true) :
    Dir.createDir d t name = (d, .error (alreadyExistsErr name)) := by
  unfold Dir.createDir
  rw [h]
  rfl

theorem createFile_occupied {d : DirState} {t : TxnId} {name : Ident} {contents : Bytes}
    (h : d.occupied t name = true) :
    Dir.createFile d t name contents = (d, .error (alreadyExistsErr name)) := by
  unfold Dir.createFile
  rw [h]
  rfl

/-- C4: `Dir::create_dir` and `Dir::create_file` first reserve the entry slot
atomically and fail AlreadyExists whenever the slot is occupied at `txn`,
leaving the entry map unchanged (the failing call returns the directory
unchanged); the write reservation makes the slot occupied for every other
creator, so that when two creates race on the same name at the same `txn`,
whichever order the per-key reservations serialize in, exactly one succeeds
(installing its entry) and the other reports AlreadyExists. -/
theorem dir_create_reservation (d : DirState) (t : TxnId) (name : Ident) (contents : Bytes) :
    (d.occupied t name = true →
      Dir.createDir d t name = (d, .error (alreadyExistsErr name))
      ∧ Dir.createFile d t name contents = (d, .error (alreadyExistsErr name)))
    ∧ (d.reserve t name).occupied t name = true
    ∧ (Dir.createDir (d.reserve t name) t name
        = (d.reserve t name, .error (alreadyExistsErr name))
      ∧ Dir.createFile (d.reserve t name) t name contents
        = (d.reserve t name, .error (alreadyExistsErr name)))
    ∧ (∀ d2 child, Dir.createDir d t name = (d2, .ok child) →
        alookup name (d2.visible t) = some (.dir child)
        ∧ Dir.createFile d2 t name contents = (d2, .error (alreadyExistsErr name))
        ∧ Dir.createDir d2 t name = (d2, .error (alreadyExistsErr name)))
    ∧ (∀ d2 e, Dir.createFile d t name contents = (d2, .ok e) →
        alookup name (d2.visible t) = some e
        ∧ Dir.createDir d2 t name = (d2, .error (alreadyExistsErr name))
        ∧ Dir.createFile d2 t name contents = (d2, .error (alreadyExistsErr name))) := by
  have hres : (d.reserve t name).occupied t name = true := by
    unfold DirSt.occupied DirSt.reserve
    simp
  refine ⟨fun h => ⟨createDir_occupied h, createFile_occupied h⟩, hres,
    ⟨createDir_occupied hres, createFile_occupied hres⟩, ?_, ?_⟩
  · intro d2 child h
    cases hocc : d.occupied t name with
    | true =>
      rw [createDir_occupied hocc] at h
      simp at h
    | false =>
      have hvis : alookup name (d2.visible t) = some (.dir child) := by
        revert h
        unfold Dir.createDir
        rw [hocc]
        simp only [Bool.false_eq_true, if_false]
        cases hcan : alookup name d.canon with
        | none =>
          intro h
          simp only [Prod.mk.injEq] at h
          obtain ⟨h1, h2⟩ := h
          injection h2 with h2e
          subst h1; subst h2e
          exact visible_addDelta_self _ t name _
        | some node =>
          cases node with
          | file b =>
            intro h
            simp only [Prod.mk.injEq] at h
            exact absurd h.2 (by simp)
          | dir cs =>
            intro h
            simp only [Prod.mk.injEq] at h
            obtain ⟨h1, h2⟩ := h
            injection h2 with h2e
            subst h1; subst h2e
            exact visible_addDelta_self _ t name _
      have hocc2 : d2.occupied t name = true := occupied_of_visible hvis
      exact ⟨hvis, createFile_occupied hocc2, createDir_occupied hocc2⟩
  · intro d2 e h
    cases hocc : d.occupied t name with
    | true =>
      rw [createFile_occupied hocc] at h
      simp at h
    | false =>
      have hvis : alookup name (d2.visible t) = some e := by
        revert h
        unfold Dir.createFile
        rw [hocc]
        simp only [Bool.false_eq_true, if_false]
        cases hver : ahas t ((alookup name d.txfs).getD []) with
        | true =>
          intro h
          simp at h
        | false =>
          intro h
          simp only [Bool.false_eq_true, if_false, Prod.mk.injEq] at h
          obtain ⟨h1, h2⟩ := h
          injection h2 with h2e
          subst h1; subst h2e
          exact visible_addDelta_self _ t name _
      have hocc2 : d2.occupied t name = true := occupied_of_visible hvis
      exact ⟨hvis, createDir_occupied hocc2, createFile_occupied hocc2⟩

theorem readAndFinalize_snd {l : SLock} {t m : TxnId}
    (h : (l.readAndFinalize t).2 = some m) : l.committedAt t = some m := by
  unfold SLock.readAndFinalize at h
  cases hf : l.finalized with
  | none => rw [hf] at h; exact h
  | some f =>
    rw [hf] at h
    have h2 : (if t < f then (l, (none : Option TxnId))
        else ({ l with finalized := some t,
                       pending := l.pending.filter (fun p => decide (t < p.1)) },
          l.committedAt t)).2 = some m := h
    by_cases hlt : t < f
    · rw [if_pos hlt] at h2
      exact Option.noConfusion h2
    · rw [if_neg hlt] at h2
      exact h2

theorem committedAt_max {l : SLock} {t m : TxnId}
    (hwf : ∀ q ∈ l.committed, q.2 = q.1) (h : l.committedAt t = some m) :
    m ≤ t ∧ ∀ q ∈ l.committed, q.1 ≤ t → q.1 ≤ m := by
  unfold SLock.committedAt at h
  cases hl : latestLE l.committed t with
  | none => rw [hl] at h; exact Option.noConfusion h
  | some q0 =>
    rw [hl] at h
    simp only [Option.map_some', Option.some.injEq] at h
    obtain ⟨hmem, hle, hmax⟩ := latestLE_spec hl
    have hq0 : q0.2 = q0.1 := hwf q0 hmem
    rw [← h, hq0]
    exact ⟨hle, hmax⟩

theorem alookup_filter_keep {α β : Type} [DecidableEq α] {k : α} {v : β}
    {p : α × β → Bool} :
    ∀ {l : List (α × β)}, alookup k l = some v → p (k, v) = true →
      alookup k (l.filter p) = some v := by
  intro l
  induction l with
  | nil => intro h _; exact Option.noConfusion h
  | cons q rest ih =>
    intro h hp
    rcases q with ⟨k1, v1⟩
    by_cases h1 : k1 = k
    · subst h1
      simp only [alookup, if_pos rfl] at h
      injection h with hv
      subst hv
      simp only [List.filter_cons]
      rw [if_pos (by exact hp)]
      simp [alookup]
    · simp only [alookup, if_neg h1] at h
      simp only [List.filter_cons]
      by_cases h2 : p (k1, v1) = true
      · rw [if_pos h2]
        simp only [alookup, if_neg h1]
        exact ih h hp
      · rw [if_neg h2]
        exact ih h hp

/-- Counterexample for C5 as stated: `Dir::finalize(1)` on a directory tree
holding a live file `f` with version file 1 leaves that version file (with
txn id 1 at most 1) under `.txfs`, because `Dir::finalize` does not recurse
into its entries and deletes only empty per-file version directories. -/
theorem dir_finalize_leaves_version_file :
    alookup "f" ((Dir.finalize dirEx 1).1.txfs) = some [(1, [7])]
    ∧ (1 : TxnId) ≤ 1 :=
  ⟨rfl, le_refl 1⟩

/-- C5 (amended): whenever `File::finalize(txn)` obtains a committed value `m`
from `read_and_finalize`, it deletes from the versions directory exactly those
version files whose name, parsed as a txn id, is at most `m`; consequently,
once `File::finalize(t)` has run on a file all of whose version ids at most
`t` are committed writer ids, no version file with id at most `t` remains for
that file. `Dir::finalize` itself deletes no version file: every non-empty
per-file version directory under `.txfs` survives it unchanged. -/
theorem file_finalize_reclaims :
    (∀ (s : FileState) (t m : TxnId),
      (s.lastModified.readAndFinalize t).2 = some m →
      (s.finalize t).versions = s.versions.filter (fun p => decide (m < p.1))
      ∧ ∀ p ∈ s.versions, (p ∈ (s.finalize t).versions ↔ m < p.1))
    ∧ (∀ (s : FileState) (t m : TxnId),
      (∀ q ∈ s.lastModified.committed, q.2 = q.1) →
      (s.lastModified.readAndFinalize t).2 = some m →
      (∀ p ∈ s.versions, p.1 ≤ t → ahas p.1 s.lastModified.committed = true) →
      ∀ p ∈ (s.finalize t).versions, t < p.1)
    ∧ (∀ (d : DirState) (t : TxnId) (name : Ident) (vs : List (TxnId × Bytes)),
      alookup name d.txfs = some vs → vs ≠ [] →
      alookup name ((Dir.finalize d t).1.txfs) = some vs) := by
  have hversions : ∀ (s : FileState) (t m : TxnId),
      (s.lastModified.readAndFinalize t).2 = some m →
      (s.finalize t).versions = s.versions.filter (fun p => decide (m < p.1)) := by
    intro s t m h
    unfold FileState.finalize fileFinalizeCore
    dsimp only
    rw [h]
  refine ⟨?_, ?_, ?_⟩
  · intro s t m h
    refine ⟨hversions s t m h, ?_⟩
    intro p hp
    rw [hversions s t m h]
    simp [List.mem_filter, hp]
  · intro s t m hwf h hcov p hp
    rw [hversions s t m h] at hp
    rw [List.mem_filter] at hp
    obtain ⟨hmem, hlt⟩ := hp
    simp only [decide_eq_true_eq] at hlt
    by_contra hnt
    have hle : p.1 ≤ t := Nat.le_of_not_lt hnt
    have hcomm := hcov p hmem hle
    obtain ⟨hmle, hmax⟩ := committedAt_max hwf (readAndFinalize_snd h)
    unfold ahas at hcomm
    cases hlk : alookup p.1 s.lastModified.committed with
    | none => rw [hlk] at hcomm; exact Bool.noConfusion hcomm
    | some v =>
      have hmm : p.1 ≤ m := hmax (p.1, v) (alookup_mem hlk) hle
      exact absurd hlt (Nat.not_lt.mpr hmm)
  · intro d t name vs hlk hne
    have htx : (d.mapFinalize t).1.txfs = d.txfs := by
      unfold DirSt.mapFinalize
      cases hf : d.entriesF with
      | none => rfl
      | some f =>
        by_cases hlt : t < f
        · simp [hlt]
        · simp [hlt]
    cases hmf : (d.mapFinalize t).2 with
    | none =>
      have hgoal : (Dir.finalize d t).1.txfs = (d.mapFinalize t).1.txfs := by
        unfold Dir.finalize
        dsimp only
        rw [hmf]
      rw [hgoal, htx]
      exact hlk
    | some entries =>
      have hgoal : (Dir.finalize d t).1.txfs
          = (d.mapFinalize t).1.txfs.filter
              (fun p => decide (p.1 ∈ akeys entries) || startsDot p.1 || ! p.2.isEmpty) := by
        unfold Dir.finalize
        dsimp only
        rw [hmf]
      rw [hgoal, htx]
      refine alookup_filter_keep hlk ?_
      cases vs with
      | nil => exact absurd rfl hne
      | cons q qs => simp

/-- Witness for C5 at a concrete file: finalizing at txn 2 with committed
writers 1 and 2 deletes exactly the version files 1 and 2, keeping version 3. -/
theorem file_finalize_reclaims_witness :
    (fileEx3.finalize 2).versions = [(3, [6])]
    ∧ ∀ p ∈ (fileEx3.finalize 2).versions, 2 < p.1 :=
  ⟨((file_finalize_reclaims.1 fileEx3 2 2 rfl).1).trans rfl,
   file_finalize_reclaims.2.1 fileEx3 2 2 (by decide) rfl (by decide)⟩

/-- Witness for C4 at a concrete empty directory: creating directory `x` at
txn 1 succeeds, and a racing file create on the same name then reports
AlreadyExists. -/
theorem dir_create_reservation_witness :
    alookup "x" (((Dir.createDir dirEmptyEx 1 "x").1).visible 1)
      = some (.dir (dirLoad 1 []))
    ∧ Dir.createFile (Dir.createDir dirEmptyEx 1 "x").1 1 "x" [1]
      = ((Dir.createDir dirEmptyEx 1 "x").1, .error (alreadyExistsErr "x")) :=
  ⟨((dir_create_reservation dirEmptyEx 1 "x" [1]).2.2.2.1
      (Dir.createDir dirEmptyEx 1 "x").1 (dirLoad 1 []) rfl).1,
   ((dir_create_reservation dirEmptyEx 1 "x" [1]).2.2.2.1
      (Dir.createDir dirEmptyEx 1 "x").1 (dirLoad 1 []) rfl).2.1⟩

theorem isFileAt_aremove_self (n : Ident) (l : List (Ident × DTree)) :
    isFileAt n (aremove n l) = false := by
  unfold isFileAt
  rw [alookup_aremove_self]

theorem isFileAt_aremove_ne {n n1 : Ident} (l : List (Ident × DTree)) (h : n ≠ n1) :
    isFileAt n (aremove n1 l) = isFileAt n l := by
  unfold isFileAt
  rw [alookup_aremove_ne _ h]

theorem commitChildren_canon (t : TxnId) (rec : Bool) :
    ∀ (fuel : Nat) (es : List (Ident × Entry)) (txfs : List (Ident × List (TxnId × Bytes)))
      (canon : List (Ident × DTree)) (out : List (Ident × Entry) × List (Ident × DTree)),
      commitChildren fuel t rec es txfs canon = some out →
      (∀ n, ahas n es = false → alookup n out.2 = alookup n canon)
      ∧ (∀ n, ahas n out.1 = ahas n es) := by
  intro fuel
  induction fuel with
  | zero => intro es txfs canon out h; simp [commitChildren] at h
  | succ fuel ih =>
    intro es txfs canon out h
    cases es with
    | nil =>
      have h2 : some (([] : List (Ident × Entry)), canon) = some out := h
      injection h2 with h2e
      subst h2e
      exact ⟨fun n _ => rfl, fun n => rfl⟩
    | cons p rest =>
      rcases p with ⟨name, e⟩
      cases e with
      | file lock =>
        have h2 : (fileCommitCore lock ((alookup name txfs).getD []) t).bind (fun fc =>
            (commitChildren fuel t rec rest txfs
                (match fc.2 with | some b => aset name (.file b) canon | none => canon)).map
              (fun r => ((name, Entry.file fc.1) :: r.1, r.2))) = some out := h
        rw [Option.bind_eq_some] at h2
        obtain ⟨fc, hfc, h3⟩ := h2
        rw [Option.map_eq_some'] at h3
        obtain ⟨r, hr, h4⟩ := h3
        subst h4
        obtain ⟨ihc, ihk⟩ := ih rest txfs _ r hr
        constructor
        · intro n hn
          rw [ahas_cons] at hn
          simp only [Bool.or_eq_false_iff, decide_eq_false_iff_not] at hn
          obtain ⟨hnn, hnr⟩ := hn
          have hne : n ≠ name := fun hh => hnn hh.symm
          have hstep := ihc n hnr
          cases hw : fc.2 with
          | some b =>
            rw [hw] at hstep
            rw [hstep, alookup_aset_ne _ _ hne]
          | none =>
            rw [hw] at hstep
            exact hstep
        · intro n
          show ahas n ((name, Entry.file fc.1) :: r.1) = ahas n ((name, Entry.file lock) :: rest)
          rw [ahas_cons, ahas_cons, ihk n]
      | dir c =>
        have h2 : (dirCommit fuel t rec c).bind (fun cr =>
            (commitChildren fuel t rec rest txfs canon).map
              (fun r => ((name, Entry.dir cr.1) :: r.1, r.2))) = some out := h
        rw [Option.bind_eq_some] at h2
        obtain ⟨cr, hcr, h3⟩ := h2
        rw [Option.map_eq_some'] at h3
        obtain ⟨r, hr, h4⟩ := h3
        subst h4
        obtain ⟨ihc, ihk⟩ := ih rest txfs canon r hr
        constructor
        · intro n hn
          rw [ahas_cons] at hn
          simp only [Bool.or_eq_false_iff, decide_eq_false_iff_not] at hn
          exact ihc n hn.2
        · intro n
          show ahas n ((name, Entry.dir cr.1) :: r.1) = ahas n ((name, Entry.dir c) :: rest)
          rw [ahas_cons, ahas_cons, ihk n]

theorem deleteDeltas_spec (contents : List (Ident × Entry)) :
    ∀ (ds : List (Ident × Option Entry)) (canon : List (Ident × DTree))
      (out : List (Ident × DTree) × Bool),
      deleteDeltas ds contents canon = some out →
      (∀ n, (n, (none : Option Entry)) ∈ ds → ahas n contents = false)
      ∧ (∀ n, alookup n canon = none → alookup n out.1 = none)
      ∧ (∀ n, (n, (none : Option Entry)) ∈ ds → alookup n out.1 = none)
      ∧ (∀ n, (∀ v, (n, v) ∉ ds) → alookup n out.1 = alookup n canon)
      ∧ (out.2 = true ↔ ∃ n, (n, (none : Option Entry)) ∈ ds ∧ isFileAt n canon = true) := by
  intro ds
  induction ds with
  | nil =>
    intro canon out h
    have h2 : some (canon, false) = some out := h
    injection h2 with h2e
    subst h2e
    refine ⟨fun n hn => absurd hn (List.not_mem_nil _), fun n hn => hn,
      fun n hn => absurd hn (List.not_mem_nil _), fun n _ => rfl, ?_⟩
    simp
  | cons q rest ih =>
    intro canon out h
    rcases q with ⟨n1, v1⟩
    cases v1 with
    | some e =>
      have h2 : deleteDeltas rest contents canon = some out := h
      obtain ⟨ih4, ih0, ih1, ih2, ih3⟩ := ih canon out h2
      refine ⟨?_, ih0, ?_, ?_, ?_⟩
      · intro n hn
        rcases List.mem_cons.mp hn with h5 | h5
        · exact absurd (congrArg Prod.snd h5) (by simp)
        · exact ih4 n h5
      · intro n hn
        rcases List.mem_cons.mp hn with h5 | h5
        · exact absurd (congrArg Prod.snd h5) (by simp)
        · exact ih1 n h5
      · intro n hn
        exact ih2 n (fun v hv => hn v (List.mem_cons_of_mem _ hv))
      · rw [ih3]
        constructor
        · rintro ⟨n, hmem, hfile⟩
          exact ⟨n, List.mem_cons_of_mem _ hmem, hfile⟩
        · rintro ⟨n, hmem, hfile⟩
          rcases List.mem_cons.mp hmem with h5 | h5
          · exact absurd (congrArg Prod.snd h5) (by simp)
          · exact ⟨n, h5, hfile⟩
    | none =>
      have h2 : (if ahas n1 contents = true then none
          else (deleteDeltas rest contents (aremove n1 canon)).map
            (fun r => (r.1, isFileAt n1 canon || r.2))) = some out := h
      cases hc : ahas n1 contents with
      | true =>
        rw [hc] at h2
        simp at h2
      | false =>
        rw [hc] at h2
        simp only [Bool.false_eq_true, if_false] at h2
        rw [Option.map_eq_some'] at h2
        obtain ⟨r, hr, heq⟩ := h2
        subst heq
        obtain ⟨ih4, ih0, ih1, ih2, ih3⟩ := ih (aremove n1 canon) r hr
        refine ⟨?_, ?_, ?_, ?_, ?_⟩
        · intro n hn
          rcases List.mem_cons.mp hn with h5 | h5
          · have : n = n1 := congrArg Prod.fst h5
            rw [this]
            exact hc
          · exact ih4 n h5
        · intro n hn
          apply ih0 n
          by_cases hnn : n = n1
          · subst hnn; exact alookup_aremove_self n canon
          · rw [alookup_aremove_ne _ hnn]; exact hn
        · intro n hn
          rcases List.mem_cons.mp hn with h5 | h5
          · have : n = n1 := congrArg Prod.fst h5
            subst this
            exact ih0 n (alookup_aremove_self n canon)
          · exact ih1 n h5
        · intro n hn
          have hne : n ≠ n1 := by
            intro hcontra
            subst hcontra
            exact hn none (List.mem_cons_self _ _)
          have := ih2 n (fun v hv => hn v (List.mem_cons_of_mem _ hv))
          rw [this, alookup_aremove_ne _ hne]
        · show (isFileAt n1 canon || r.2) = true ↔ _
          constructor
          · intro hor
            rcases Bool.or_eq_true_iff.mp hor with hl | hrr
            · exact ⟨n1, List.mem_cons_self _ _, hl⟩
            · obtain ⟨n, hmem, hfile⟩ := ih3.mp hrr
              by_cases hnn : n = n1
              · subst hnn
                rw [isFileAt_aremove_self] at hfile
                exact Bool.noConfusion hfile
              · rw [isFileAt_aremove_ne _ hnn] at hfile
                exact ⟨n, List.mem_cons_of_mem _ hmem, hfile⟩
          · rintro ⟨n, hmem, hfile⟩
            rcases List.mem_cons.mp hmem with h5 | h5
            · have : n = n1 := congrArg Prod.fst h5
              subst this
              rw [hfile]
              rfl
            · by_cases hnn : n = n1
              · subst hnn
                rw [hfile]
                rfl
              · refine Bool.or_eq_true_iff.mpr (Or.inr (ih3.mpr ⟨n, h5, ?_⟩))
                rw [isFileAt_aremove_ne _ hnn]
                exact hfile

/-- Counterexample for C7 as stated: with `recursive = true`, a child file
modified at `txn` (which introduces no delta in the entries map) has its
canonical copy `canon/f` rewritten by `Dir::commit`, so the on-disk mutation
on the directory's own canonical directory is not confined to the deltas. -/
theorem dir_commit_touches_undeltaed_name :
    alookup 1 dirEx7.entriesP = none
    ∧ alookup "f" dirEx7.canon = some (.file [7])
    ∧ dirCommit 3 1 true dirEx7
      = some (⟨[("f", .file ⟨[(1, 1), (0, 0)], [], none⟩)], [], [], none,
          [("f", .file [9])], [("f", [(1, [9])])], true⟩, false)
    ∧ alookup "f" (⟨[("f", .file ⟨[(1, 1), (0, 0)], [], none⟩)], [], [], none,
          [("f", .file [9])], [("f", [(1, [9])])], true⟩ : DirState).canon
      = some (.file [9]) :=
  ⟨rfl, rfl, rfl, rfl⟩

/-- C7 (amended): the deletion pass of `Dir::commit(txn, recursive)` on its
own canonical directory is confined to the deltas returned by
`read_and_commit`: it deletes `canon/<name>` for each delta whose value is
absent, it never touches a name that has neither a delta nor a committed
entry at `txn`, and it syncs the canonical directory iff at least one such
removal found a file on disk. (With `recursive = true`, child file commits
may additionally rewrite the canonical contents of committed entries, which
is what the counterexample exhibits.) -/
theorem dir_commit_deltas (fuel : Nat) (t : TxnId) (rec : Bool) (d : DirState)
    (d' : DirState) (sync : Bool) (ds : List (Ident × Option Entry))
    (hds : alookup t d.entriesP = some ds)
    (h : dirCommit fuel t rec d = some (d', sync)) :
    (∀ n, (n, (none : Option Entry)) ∈ ds → alookup n d'.canon = none)
    ∧ (∀ n, (∀ v, (n, v) ∉ ds) → ahas n (applyDeltas ds d.entriesC) = false →
        alookup n d'.canon = alookup n d.canon)
    ∧ (sync = true ↔ ∃ n, (n, (none : Option Entry)) ∈ ds ∧ isFileAt n d.canon = true) := by
  cases fuel with
  | zero => simp [dirCommit] at h
  | succ fuel =>
    have hmc : d.mapCommit t
        = ({ d with entriesC := applyDeltas ds d.entriesC, entriesP := aremove t d.entriesP },
            applyDeltas ds d.entriesC, some ds) := by
      unfold DirSt.mapCommit
      rw [hds]
    simp only [dirCommit] at h
    rw [hmc] at h
    cases rec with
    | false =>
      have h4 : (deleteDeltas ds (applyDeltas ds d.entriesC) d.canon).map
          (fun dd => ((⟨applyDeltas ds d.entriesC, aremove t d.entriesP, d.entriesR,
              d.entriesF, dd.1, d.txfs, d.txfsOnDisk⟩ : DirState), dd.2))
          = some (d', sync) := h
      rw [Option.map_eq_some'] at h4
      obtain ⟨dd, hdd, heq⟩ := h4
      have hd' : (⟨applyDeltas ds d.entriesC, aremove t d.entriesP, d.entriesR,
          d.entriesF, dd.1, d.txfs, d.txfsOnDisk⟩ : DirState) = d' :=
        congrArg Prod.fst heq
      have hs : dd.2 = sync := congrArg Prod.snd heq
      subst hd'
      subst hs
      obtain ⟨dd4, dd0, dd1, dd2, dd3⟩ := deleteDeltas_spec _ ds d.canon dd hdd
      exact ⟨fun n hn => dd1 n hn, fun n hn _ => dd2 n hn, dd3⟩
    | true =>
      have h3 : (commitChildren fuel t true (applyDeltas ds d.entriesC) d.txfs d.canon).bind
          (fun cc => (deleteDeltas ds cc.1 cc.2).map
            (fun dd => ((⟨cc.1, aremove t d.entriesP, d.entriesR,
                d.entriesF, dd.1, d.txfs, d.txfsOnDisk⟩ : DirState), dd.2)))
          = some (d', sync) := h
      rw [Option.bind_eq_some] at h3
      obtain ⟨cc, hcc, h4⟩ := h3
      rw [Option.map_eq_some'] at h4
      obtain ⟨dd, hdd, heq⟩ := h4
      have hd' : (⟨cc.1, aremove t d.entriesP, d.entriesR,
          d.entriesF, dd.1, d.txfs, d.txfsOnDisk⟩ : DirState) = d' :=
        congrArg Prod.fst heq
      have hs : dd.2 = sync := congrArg Prod.snd heq
      subst hd'
      subst hs
      obtain ⟨ccc, cck⟩ := commitChildren_canon t true fuel _ _ _ cc hcc
      obtain ⟨dd4, dd0, dd1, dd2, dd3⟩ := deleteDeltas_spec _ ds cc.2 dd hdd
      have htransfer : ∀ n, (n, (none : Option Entry)) ∈ ds →
          isFileAt n cc.2 = isFileAt n d.canon := by
        intro n hn
        have h5 : ahas n cc.1 = false := dd4 n hn
        rw [cck n] at h5
        have h6 := ccc n h5
        unfold isFileAt
        rw [h6]
      refine ⟨?_, ?_, ?_⟩
      · intro n hn
        exact dd1 n hn
      · intro n hn hnc
        show alookup n dd.1 = alookup n d.canon
        rw [dd2 n hn]
        exact ccc n hnc
      · rw [show (dd.2 = true) = ((dd.2 = true)) from rfl, dd3]
        constructor
        · rintro ⟨n, hmem, hfile⟩
          rw [htransfer n hmem] at hfile
          exact ⟨n, hmem, hfile⟩
        · rintro ⟨n, hmem, hfile⟩
          rw [← htransfer n hmem] at hfile
          exact ⟨n, hmem, hfile⟩

/-- Witness for C7 at a concrete directory: committing a deletion delta for
`g` at txn 1 removes `canon/g` and reports that the canonical directory was
synced because the removal found a file. -/
theorem dir_commit_deltas_witness :
    alookup "g" dirEmptyEx.canon = none
    ∧ ((true = true) ↔
        ∃ n, (n, (none : Option Entry)) ∈ [("g", (none : Option Entry))]
          ∧ isFileAt n dirEx7b.canon = true) :=
  ⟨(dir_commit_deltas 1 1 false dirEx7b dirEmptyEx true [("g", none)] rfl rfl).1 "g"
      (List.mem_singleton.mpr rfl),
   (dir_commit_deltas 1 1 false dirEx7b dirEmptyEx true [("g", none)] rfl rfl).2.2⟩

theorem map_replace_id {α β : Type} [DecidableEq α] {k : α} {v : β} :
    ∀ {l : List (α × β)}, ahas k l = false →
      l.map (fun p => if p.1 = k then (k, v) else p) = l := by
  intro l
  induction l with
  | nil => intro _; rfl
  | cons p rest ih =>
    intro h
    rcases p with ⟨k1, v1⟩
    rw [ahas_cons] at h
    simp only [Bool.or_eq_false_iff, decide_eq_false_iff_not] at h
    obtain ⟨h1, h2⟩ := h
    simp only [List.map_cons, if_neg h1]
    rw [ih h2]

theorem aset_noop {α β : Type} [DecidableEq α] {k : α} {v : β} :
    ∀ {l : List (α × β)}, nodupKeys l = true → alookup k l = some v → aset k v l = l := by
  intro l
  induction l with
  | nil => intro _ h; exact Option.noConfusion h
  | cons p rest ih =>
    intro hnd h
    rcases p with ⟨k1, v1⟩
    simp only [nodupKeys, Bool.and_eq_true] at hnd
    obtain ⟨hnd1, hnd2⟩ := hnd
    simp only [Bool.not_eq_true'] at hnd1
    by_cases h1 : k1 = k
    · subst h1
      simp only [alookup, if_pos rfl] at h
      injection h with hv
      subst hv
      have hh : ahas k1 ((k1, v1) :: rest) = true := by simp [ahas, alookup]
      unfold aset
      rw [hh]
      simp only [if_true, List.map_cons]
      rw [map_replace_id hnd1]
    · simp only [alookup, if_neg h1] at h
      have hh : ahas k ((k1, v1) :: rest) = ahas k rest := by
        simp [ahas, alookup, h1]
      have hrest : ahas k rest = true := ahas_true_of_lookup h
      unfold aset
      rw [hh, hrest]
      simp only [if_true, List.map_cons, if_neg h1]
      have := ih hnd2 h
      unfold aset at this
      rw [hrest] at this
      simp only [if_true] at this
      rw [this]

theorem ahas_map_keys {α β : Type} [DecidableEq α] (f : α × β → α × β)
    (hf : ∀ p, (f p).1 = p.1) :
    ∀ (l : List (α × β)) (k : α), ahas k (l.map f) = ahas k l := by
  intro l
  induction l with
  | nil => intro k; rfl
  | cons p rest ih =>
    intro k
    simp only [List.map_cons]
    rw [ahas_cons, ahas_cons, hf p, ih k]

theorem nodupKeys_map_keys {α β : Type} [DecidableEq α] (f : α × β → α × β)
    (hf : ∀ p, (f p).1 = p.1) :
    ∀ (l : List (α × β)), nodupKeys (l.map f) = nodupKeys l := by
  intro l
  induction l with
  | nil => rfl
  | cons p rest ih =>
    simp only [List.map_cons, nodupKeys]
    rw [hf p, ahas_map_keys f hf, ih]

theorem nodupKeys_aset {α β : Type} [DecidableEq α] {k : α} {v : β}
    {l : List (α × β)} (hnd : nodupKeys l = true) : nodupKeys (aset k v l) = true := by
  unfold aset
  cases hh : ahas k l with
  | false =>
    simp only [hh, Bool.false_eq_true, if_false]
    simp only [nodupKeys, hh, Bool.and_eq_true]
    exact ⟨rfl, hnd⟩
  | true =>
    simp only [hh, if_true]
    rw [nodupKeys_map_keys _ (fun p => by by_cases h1 : p.1 = k <;> simp [h1])]
    exact hnd

theorem ahas_filter_false {α β : Type} [DecidableEq α] {k : α} {p : α × β → Bool} :
    ∀ {l : List (α × β)}, ahas k l = false → ahas k (l.filter p) = false := by
  intro l
  induction l with
  | nil => intro _; rfl
  | cons q rest ih =>
    intro h
    rw [ahas_cons] at h
    simp only [Bool.or_eq_false_iff, decide_eq_false_iff_not] at h
    obtain ⟨h1, h2⟩ := h
    simp only [List.filter_cons]
    by_cases hq : p q = true
    · rw [if_pos hq, ahas_cons]
      simp only [Bool.or_eq_false_iff, decide_eq_false_iff_not]
      exact ⟨h1, ih h2⟩
    · rw [if_neg hq]
      exact ih h2

theorem nodupKeys_filter {α β : Type} [DecidableEq α] {p : α × β → Bool} :
    ∀ {l : List (α × β)}, nodupKeys l = true → nodupKeys (l.filter p) = true := by
  intro l
  induction l with
  | nil => intro _; rfl
  | cons q rest ih =>
    intro h
    simp only [nodupKeys, Bool.and_eq_true] at h
    obtain ⟨h1, h2⟩ := h
    simp only [Bool.not_eq_true'] at h1
    simp only [List.filter_cons]
    by_cases hq : p q = true
    · rw [if_pos hq]
      simp only [nodupKeys, Bool.and_eq_true]
      refine ⟨?_, ih h2⟩
      rw [ahas_filter_false h1]
      rfl
    · rw [if_neg hq]
      exact ih h2

theorem nodupKeys_aremove {α β : Type} [DecidableEq α] {k : α} {l : List (α × β)}
    (h : nodupKeys l = true) : nodupKeys (aremove k l) = true :=
  nodupKeys_filter h

theorem nodupKeys_applyDelta {base : List (Ident × Entry)} {d : Ident × Option Entry}
    (h : nodupKeys base = true) : nodupKeys (applyDelta base d) = true := by
  unfold applyDelta
  cases d.2 with
  | some e => exact nodupKeys_aset h
  | none => exact nodupKeys_aremove h

theorem nodupKeys_applyDeltas :
    ∀ (ds : List (Ident × Option Entry)) {base : List (Ident × Entry)},
      nodupKeys base = true → nodupKeys (applyDeltas ds base) = true := by
  intro ds
  induction ds with
  | nil => intro base h; exact h
  | cons d rest ih =>
    intro base h
    exact ih (nodupKeys_applyDelta h)

theorem fileCommitCore_idem {lock : SLock} {bytes : List (TxnId × Bytes)} {t : TxnId}
    {r : SLock × Option Bytes} (h : fileCommitCore lock bytes t = some r) :
    fileCommitCore r.1 bytes t = some r := by
  cases hp : alookup t lock.pending with
  | some v =>
    have hrc : lock.readAndCommit t
        = ((⟨aset t v lock.committed, aremove t lock.pending, lock.finalized⟩ : SLock),
           SLock.committedAt
             ⟨aset t v lock.committed, aremove t lock.pending, lock.finalized⟩ t) := by
      unfold SLock.readAndCommit
      rw [hp]
    have hrc2 : SLock.readAndCommit
        ⟨aset t v lock.committed, aremove t lock.pending, lock.finalized⟩ t
        = ((⟨aset t v lock.committed, aremove t lock.pending, lock.finalized⟩ : SLock),
           SLock.committedAt
             ⟨aset t v lock.committed, aremove t lock.pending, lock.finalized⟩ t) := by
      unfold SLock.readAndCommit
      rw [show alookup t (SLock.pending
            ⟨aset t v lock.committed, aremove t lock.pending, lock.finalized⟩) = none
          from alookup_aremove_self t lock.pending]
    unfold fileCommitCore at h ⊢
    rw [hrc] at h
    dsimp only at h
    by_cases hcond : SLock.committedAt
        ⟨aset t v lock.committed, aremove t lock.pending, lock.finalized⟩ t = some t
    · rw [if_pos hcond] at h
      cases hb : alookup t bytes with
      | none =>
        rw [hb] at h
        exact Option.noConfusion h
      | some b =>
        rw [hb] at h
        injection h with h2
        subst h2
        dsimp only
        rw [hrc2]
        dsimp only
        rw [if_pos hcond]
    · rw [if_neg hcond] at h
      injection h with h2
      subst h2
      dsimp only
      rw [hrc2]
      dsimp only
      rw [if_neg hcond]
  | none =>
    have hrc : lock.readAndCommit t = (lock, lock.committedAt t) := by
      unfold SLock.readAndCommit
      rw [hp]
    unfold fileCommitCore at h ⊢
    rw [hrc] at h
    dsimp only at h
    by_cases hcond : lock.committedAt t = some t
    · rw [if_pos hcond] at h
      cases hb : alookup t bytes with
      | none =>
        rw [hb] at h
        exact Option.noConfusion h
      | some b =>
        rw [hb] at h
        injection h with h2
        subst h2
        dsimp only
        rw [hrc]
        dsimp only
        rw [if_pos hcond]
    · rw [if_neg hcond] at h
      injection h with h2
      subst h2
      dsimp only
      rw [hrc]
      dsimp only
      rw [if_neg hcond]

theorem fileCommit_idem {s s' : FileState} {t : TxnId}
    (h : FileState.commit s t = some s') : FileState.commit s' t = some s' := by
  unfold FileState.commit at h ⊢
  cases hc : fileCommitCore s.lastModified s.versions t with
  | none =>
    rw [hc] at h
    exact Option.noConfusion h
  | some p =>
    rcases p with ⟨lock2, w⟩
    rw [hc] at h
    simp at h
    subst h
    have hidem := fileCommitCore_idem hc
    dsimp only
    rw [show fileCommitCore lock2 s.versions t = some (lock2, w) from hidem]
    cases w with
    | some b => rfl
    | none => rfl

theorem fileRollback_idem (s : FileState) (t : TxnId) :
    (s.rollback t).rollback t = s.rollback t := by
  unfold FileState.rollback fileRollbackCore SLock.readAndRollback
  dsimp only
  by_cases hc : s.lastModified.committedAt t = some t
  · simp [SLock.committedAt, SLock.committedAt] at hc ⊢
    simp [hc, aremove_idem]
  · simp [SLock.committedAt] at hc ⊢
    simp [hc, aremove_idem]

theorem fileFinalize_idem (s : FileState) (t : TxnId) :
    (s.finalize t).finalize t = s.finalize t := by
  unfold FileState.finalize fileFinalizeCore SLock.readAndFinalize
  cases hf : s.lastModified.finalized with
  | some f =>
    by_cases hlt : t < f
    · simp [hf, hlt]
    · simp [hf, hlt, lt_irrefl, filter_idem, SLock.committedAt]
      cases hm : (latestLE s.lastModified.committed t).map Prod.snd with
      | some m => simp [hm, filter_idem]
      | none => simp [hm]
  | none =>
    simp [hf, lt_irrefl, filter_idem, SLock.committedAt]
    cases hm : (latestLE s.lastModified.committed t).map Prod.snd with
    | some m => simp [hm, filter_idem]
    | none => simp [hm]

theorem deleteDeltas_keep (contents : List (Ident × Entry)) :
    ∀ (ds : List (Ident × Option Entry)) (canon : List (Ident × DTree))
      (out : List (Ident × DTree) × Bool),
      deleteDeltas ds contents canon = some out →
      ∀ n, ahas n contents = true → alookup n out.1 = alookup n canon := by
  intro ds
  induction ds with
  | nil =>
    intro canon out h n hn
    have h2 : some (canon, false) = some out := h
    injection h2 with h2e
    subst h2e
    rfl
  | cons q rest ih =>
    intro canon out h n hn
    rcases q with ⟨n1, v1⟩
    cases v1 with
    | some e =>
      exact ih canon out h n hn
    | none =>
      have h2 : (if ahas n1 contents = true then none
          else (deleteDeltas rest contents (aremove n1 canon)).map
            (fun r => (r.1, isFileAt n1 canon || r.2))) = some out := h
      cases hc : ahas n1 contents with
      | true =>
        rw [hc] at h2
        simp at h2
      | false =>
        rw [hc] at h2
        simp only [Bool.false_eq_true, if_false] at h2
        rw [Option.map_eq_some'] at h2
        obtain ⟨r, hr, heq⟩ := h2
        subst heq
        have hne : n ≠ n1 := by
          intro hcontra
          subst hcontra
          rw [hn] at hc
          exact Bool.noConfusion hc
        have := ih (aremove n1 canon) r hr n hn
        rw [this]
        exact alookup_aremove_ne _ hne

theorem deleteDeltas_nodup (contents : List (Ident × Entry)) :
    ∀ (ds : List (Ident × Option Entry)) (canon : List (Ident × DTree))
      (out : List (Ident × DTree) × Bool),
      deleteDeltas ds contents canon = some out →
      nodupKeys canon = true → nodupKeys out.1 = true := by
  intro ds
  induction ds with
  | nil =>
    intro canon out h hnd
    have h2 : some (canon, false) = some out := h
    injection h2 with h2e
    subst h2e
    exact hnd
  | cons q rest ih =>
    intro canon out h hnd
    rcases q with ⟨n1, v1⟩
    cases v1 with
    | some e => exact ih canon out h hnd
    | none =>
      have h2 : (if ahas n1 contents = true then none
          else (deleteDeltas rest contents (aremove n1 canon)).map
            (fun r => (r.1, isFileAt n1 canon || r.2))) = some out := h
      cases hc : ahas n1 contents with
      | true =>
        rw [hc] at h2
        simp at h2
      | false =>
        rw [hc] at h2
        simp only [Bool.false_eq_true, if_false] at h2
        rw [Option.map_eq_some'] at h2
        obtain ⟨r, hr, heq⟩ := h2
        subst heq
        exact ih (aremove n1 canon) r hr (nodupKeys_aremove hnd)

theorem commitChildren_nodup (t : TxnId) (rec : Bool) :
    ∀ (fuel : Nat) (es : List (Ident × Entry)) (txfs : List (Ident × List (TxnId × Bytes)))
      (canon : List (Ident × DTree)) (out : List (Ident × Entry) × List (Ident × DTree)),
      commitChildren fuel t rec es txfs canon = some out →
      nodupKeys canon = true → nodupKeys out.2 = true := by
  intro fuel
  induction fuel with
  | zero => intro es txfs canon out h; simp [commitChildren] at h
  | succ fuel ih =>
    intro es txfs canon out h hnd
    cases es with
    | nil =>
      have h2 : some (([] : List (Ident × Entry)), canon) = some out := h
      injection h2 with h2e
      subst h2e
      exact hnd
    | cons p rest =>
      rcases p with ⟨name, e⟩
      cases e with
      | file lock =>
        have h2 : (fileCommitCore lock ((alookup name txfs).getD []) t).bind (fun fc =>
            (commitChildren fuel t rec rest txfs
                (match fc.2 with | some b => aset name (.file b) canon | none => canon)).map
              (fun r => ((name, Entry.file fc.1) :: r.1, r.2))) = some out := h
        rw [Option.bind_eq_some] at h2
        obtain ⟨fc, hfc, h3⟩ := h2
        rw [Option.map_eq_some'] at h3
        obtain ⟨r, hr, h4⟩ := h3
        subst h4
        cases hw : fc.2 with
        | some b =>
          rw [hw] at hr
          exact ih rest txfs _ r hr (nodupKeys_aset hnd)
        | none =>
          rw [hw] at hr
          exact ih rest txfs _ r hr hnd
      | dir c =>
        have h2 : (dirCommit fuel t rec c).bind (fun cr =>
            (commitChildren fuel t rec rest txfs canon).map
              (fun r => ((name, Entry.dir cr.1) :: r.1, r.2))) = some out := h
        rw [Option.bind_eq_some] at h2
        obtain ⟨cr, hcr, h3⟩ := h2
        rw [Option.map_eq_some'] at h3
        obtain ⟨r, hr, h4⟩ := h3
        subst h4
        exact ih rest txfs canon r hr hnd

theorem rollbackChildren_txfs (t : TxnId) (rec : Bool) :
    ∀ (fuel : Nat) (es : List (Ident × Entry)) (txfs : List (Ident × List (TxnId × Bytes)))
      (out : List (Ident × Entry) × List (Ident × List (TxnId × Bytes))),
      rollbackChildren fuel t rec es txfs = some out →
      (∀ n, ahas n es = false → alookup n out.2 = alookup n txfs)
      ∧ (nodupKeys txfs = true → nodupKeys out.2 = true) := by
  intro fuel
  induction fuel with
  | zero => intro es txfs out h; simp [rollbackChildren] at h
  | succ fuel ih =>
    intro es txfs out h
    cases es with
    | nil =>
      have h2 : some (([] : List (Ident × Entry)), txfs) = some out := h
      injection h2 with h2e
      subst h2e
      exact ⟨fun n _ => rfl, fun hnd => hnd⟩
    | cons p rest =>
      rcases p with ⟨name, e⟩
      cases e with
      | file lock =>
        have h2 : ((rollbackChildren fuel t rec rest
            (if (fileRollbackCore lock t).2
             then aset name (aremove t ((alookup name txfs).getD [])) txfs else txfs)).map
            (fun r2 => ((name, Entry.file (fileRollbackCore lock t).1) :: r2.1, r2.2)))
            = some out := h
        rw [Option.map_eq_some'] at h2
        obtain ⟨r2, hr2, h3⟩ := h2
        subst h3
        obtain ⟨ihp, ihn⟩ := ih rest _ r2 hr2
        cases hflag : (fileRollbackCore lock t).2 with
        | true =>
          rw [hflag] at ihp ihn
          simp only [if_true] at ihp ihn
          constructor
          · intro n hn
            rw [ahas_cons] at hn
            simp only [Bool.or_eq_false_iff, decide_eq_false_iff_not] at hn
            obtain ⟨hnn, hnr⟩ := hn
            have hne : n ≠ name := fun hh => hnn hh.symm
            rw [ihp n hnr]
            exact alookup_aset_ne _ _ hne
          · intro hnd
            exact ihn (nodupKeys_aset hnd)
        | false =>
          rw [hflag] at ihp ihn
          simp only [Bool.false_eq_true, if_false] at ihp ihn
          constructor
          · intro n hn
            rw [ahas_cons] at hn
            simp only [Bool.or_eq_false_iff, decide_eq_false_iff_not] at hn
            exact ihp n hn.2
          · exact ihn
      | dir c =>
        have h2 : ((dirRollback fuel t rec c).bind (fun c2 =>
            (rollbackChildren fuel t rec rest txfs).map
              (fun r2 => ((name, Entry.dir c2) :: r2.1, r2.2)))) = some out := h
        rw [Option.bind_eq_some] at h2
        obtain ⟨c2, hc2, h3⟩ := h2
        rw [Option.map_eq_some'] at h3
        obtain ⟨r2, hr2, h4⟩ := h3
        subst h4
        obtain ⟨ihp, ihn⟩ := ih rest txfs r2 hr2
        constructor
        · intro n hn
          rw [ahas_cons] at hn
          simp only [Bool.or_eq_false_iff, decide_eq_false_iff_not] at hn
          exact ihp n hn.2
        · exact ihn

theorem entriesWfL_filter {p : Ident × Entry → Bool} :
    ∀ {l : List (Ident × Entry)}, entriesWfL l = true → entriesWfL (l.filter p) = true := by
  intro l
  induction l with
  | nil => intro _; rfl
  | cons q rest ih =>
    intro h
    rcases q with ⟨k, e⟩
    have h2 : (entryWf e && entriesWfL rest) = true := h
    rw [Bool.and_eq_true] at h2
    obtain ⟨h1, h3⟩ := h2
    simp only [List.filter_cons]
    by_cases hq : p (k, e) = true
    · rw [if_pos hq]
      show (entryWf e && entriesWfL (rest.filter p)) = true
      rw [Bool.and_eq_true]
      exact ⟨h1, ih h3⟩
    · rw [if_neg hq]
      exact ih h3

theorem entriesWfL_aset {k : Ident} {e : Entry} (he : entryWf e = true) :
    ∀ {l : List (Ident × Entry)}, entriesWfL l = true → entriesWfL (aset k e l) = true := by
  intro l
  induction l with
  | nil =>
    intro _
    show (entryWf e && entriesWfL []) = true
    rw [Bool.and_eq_true]
    exact ⟨he, rfl⟩
  | cons q rest ih =>
    intro h
    rcases q with ⟨k1, e1⟩
    have h2 : (entryWf e1 && entriesWfL rest) = true := h
    rw [Bool.and_eq_true] at h2
    obtain ⟨h1, h3⟩ := h2
    unfold aset
    cases hh : ahas k ((k1, e1) :: rest) with
    | false =>
      simp only [Bool.false_eq_true, if_false]
      show (entryWf e && entriesWfL ((k1, e1) :: rest)) = true
      rw [Bool.and_eq_true]
      exact ⟨he, h⟩
    | true =>
      simp only [if_true, List.map_cons]
      by_cases h1k : k1 = k
      · rw [show (if ((k1, e1) : Ident × Entry).1 = k then (k, e) else (k1, e1))
            = (k, e) from by simp [h1k]]
        show (entryWf e
            && entriesWfL (rest.map (fun p => if p.1 = k then (k, e) else p))) = true
        rw [Bool.and_eq_true]
        refine ⟨he, ?_⟩
        have := ih h3
        unfold aset at this
        cases hh2 : ahas k rest with
        | true =>
          rw [hh2] at this
          simp only [if_true] at this
          exact this
        | false =>
          rw [map_replace_id hh2]
          exact h3
      · rw [show (if ((k1, e1) : Ident × Entry).1 = k then (k, e) else (k1, e1))
            = (k1, e1) from by simp [h1k]]
        show (entryWf e1
            && entriesWfL (rest.map (fun p => if p.1 = k then (k, e) else p))) = true
        rw [Bool.and_eq_true]
        refine ⟨h1, ?_⟩
        have := ih h3
        unfold aset at this
        cases hh2 : ahas k rest with
        | true =>
          rw [hh2] at this
          simp only [if_true] at this
          exact this
        | false =>
          rw [map_replace_id hh2]
          exact h3

theorem entriesWfL_applyDeltas :
    ∀ (ds : List (Ident × Option Entry)) {base : List (Ident × Entry)},
      deltasWfL ds = true → entriesWfL base = true →
      entriesWfL (applyDeltas ds base) = true := by
  intro ds
  induction ds with
  | nil => intro base _ h; exact h
  | cons d rest ih =>
    intro base hds h
    rcases d with ⟨k, v⟩
    cases v with
    | some e =>
      have h2 : (entryWf e && deltasWfL rest) = true := hds
      rw [Bool.and_eq_true] at h2
      exact ih h2.2 (entriesWfL_aset h2.1 h)
    | none =>
      have h2 : (true && deltasWfL rest) = true := hds
      rw [Bool.and_eq_true] at h2
      exact ih h2.2 (entriesWfL_filter h)

theorem pendingWfL_lookup {t : TxnId} :
    ∀ {ps : List (TxnId × List (Ident × Option Entry))} {ds : List (Ident × Option Entry)},
      pendingWfL ps = true → alookup t ps = some ds → deltasWfL ds = true := by
  intro ps
  induction ps with
  | nil => intro ds _ h; exact Option.noConfusion h
  | cons q rest ih =>
    intro ds hwf h
    rcases q with ⟨t1, ds1⟩
    have h2 : (deltasWfL ds1 && pendingWfL rest) = true := hwf
    rw [Bool.and_eq_true] at h2
    by_cases ht : t1 = t
    · have h3 : alookup t ((t1, ds1) :: rest) = some ds1 := by
        simp [alookup, ht]
      rw [h3] at h
      injection h with h4
      subst h4
      exact h2.1
    · have h3 : alookup t ((t1, ds1) :: rest) = alookup t rest := by
        simp [alookup, ht]
      rw [h3] at h
      exact ih h2.2 h

theorem mapCommit_none {d : DirState} {t : TxnId} (hp : alookup t d.entriesP = none) :
    d.mapCommit t = (d, d.entriesC, none) := by
  unfold DirSt.mapCommit
  rw [hp]

theorem commit_idem_aux :
    ∀ (fuel : Nat),
      (∀ (t : TxnId) (rec : Bool) (d d' : DirState) (sync : Bool),
        dirWf d = true → dirCommit fuel t rec d = some (d', sync) →
        dirCommit fuel t rec d' = some (d', false))
      ∧ (∀ (t : TxnId) (rec : Bool) (es : List (Ident × Entry))
          (txfs : List (Ident × List (TxnId × Bytes))) (canon : List (Ident × DTree))
          (out : List (Ident × Entry) × List (Ident × DTree)),
          nodupKeys es = true → entriesWfL es = true →
          commitChildren fuel t rec es txfs canon = some out →
          ∀ canon2, nodupKeys canon2 = true →
            (∀ n, ahas n es = true → alookup n canon2 = alookup n out.2) →
            commitChildren fuel t rec out.1 txfs canon2 = some (out.1, canon2)) := by
  intro fuel
  induction fuel with
  | zero =>
    constructor
    · intro t rec d d' sync _ h
      simp [dirCommit] at h
    · intro t rec es txfs canon out _ _ h
      simp [commitChildren] at h
  | succ fuel ih =>
    obtain ⟨ihP, ihQ⟩ := ih
    constructor
    · intro t rec d d' sync hwf h
      have hwf2 : (nodupKeys d.entriesC && nodupKeys d.canon && nodupKeys d.txfs
          && entriesWfL d.entriesC && pendingWfL d.entriesP) = true := hwf
      simp only [Bool.and_eq_true] at hwf2
      obtain ⟨⟨⟨⟨hndC, hndCanon⟩, hndTxfs⟩, hwfC⟩, hwfP⟩ := hwf2
      cases hp : alookup t d.entriesP with
      | some ds =>
        have hmc : d.mapCommit t
            = ((⟨applyDeltas ds d.entriesC, aremove t d.entriesP, d.entriesR, d.entriesF,
                  d.canon, d.txfs, d.txfsOnDisk⟩ : DirState),
                applyDeltas ds d.entriesC, some ds) := by
          unfold DirSt.mapCommit
          rw [hp]
        simp only [dirCommit] at h
        rw [hmc] at h
        cases rec with
        | false =>
          have h4 : (deleteDeltas ds (applyDeltas ds d.entriesC) d.canon).map
              (fun dd => ((⟨applyDeltas ds d.entriesC, aremove t d.entriesP, d.entriesR,
                  d.entriesF, dd.1, d.txfs, d.txfsOnDisk⟩ : DirState), dd.2))
              = some (d', sync) := h
          rw [Option.map_eq_some'] at h4
          obtain ⟨dd, hdd, heq⟩ := h4
          have hd' : (⟨applyDeltas ds d.entriesC, aremove t d.entriesP, d.entriesR,
              d.entriesF, dd.1, d.txfs, d.txfsOnDisk⟩ : DirState) = d' :=
            congrArg Prod.fst heq
          subst hd'
          have hp2 : alookup t (DirSt.entriesP
              (⟨applyDeltas ds d.entriesC, aremove t d.entriesP, d.entriesR,
                d.entriesF, dd.1, d.txfs, d.txfsOnDisk⟩ : DirState)) = none :=
            alookup_aremove_self t d.entriesP
          simp only [dirCommit]
          rw [mapCommit_none hp2]
          rfl
        | true =>
          have h3 : (commitChildren fuel t true (applyDeltas ds d.entriesC)
                d.txfs d.canon).bind
              (fun cc => (deleteDeltas ds cc.1 cc.2).map
                (fun dd => ((⟨cc.1, aremove t d.entriesP, d.entriesR,
                    d.entriesF, dd.1, d.txfs, d.txfsOnDisk⟩ : DirState), dd.2)))
              = some (d', sync) := h
          rw [Option.bind_eq_some] at h3
          obtain ⟨cc, hcc, h4⟩ := h3
          rw [Option.map_eq_some'] at h4
          obtain ⟨dd, hdd, heq⟩ := h4
          have hd' : (⟨cc.1, aremove t d.entriesP, d.entriesR,
              d.entriesF, dd.1, d.txfs, d.txfsOnDisk⟩ : DirState) = d' :=
            congrArg Prod.fst heq
          subst hd'
          have hds' : deltasWfL ds = true := pendingWfL_lookup hwfP hp
          have hndc : nodupKeys (applyDeltas ds d.entriesC) = true :=
            nodupKeys_applyDeltas ds hndC
          have hwfc : entriesWfL (applyDeltas ds d.entriesC) = true :=
            entriesWfL_applyDeltas ds hds' hwfC
          have hnddd : nodupKeys dd.1 = true :=
            deleteDeltas_nodup _ ds cc.2 dd hdd
              (commitChildren_nodup t true fuel _ _ _ cc hcc hndCanon)
          have hpres : ∀ n, ahas n (applyDeltas ds d.entriesC) = true →
              alookup n dd.1 = alookup n cc.2 := by
            intro n hn
            refine deleteDeltas_keep _ ds cc.2 dd hdd n ?_
            rw [(commitChildren_canon t true fuel _ _ _ cc hcc).2 n]
            exact hn
          have hrest := ihQ t true (applyDeltas ds d.entriesC) d.txfs d.canon cc
            hndc hwfc hcc dd.1 hnddd hpres
          have hp2 : alookup t (DirSt.entriesP
              (⟨cc.1, aremove t d.entriesP, d.entriesR,
                d.entriesF, dd.1, d.txfs, d.txfsOnDisk⟩ : DirState)) = none :=
            alookup_aremove_self t d.entriesP
          simp only [dirCommit]
          rw [mapCommit_none hp2]
          have hfinal : (commitChildren fuel t true cc.1 d.txfs dd.1).bind
              (fun cc2 => some ((⟨cc2.1, aremove t d.entriesP, d.entriesR, d.entriesF,
                  cc2.2, d.txfs, d.txfsOnDisk⟩ : DirState), false))
              = some ((⟨cc.1, aremove t d.entriesP, d.entriesR, d.entriesF,
                  dd.1, d.txfs, d.txfsOnDisk⟩ : DirState), false) := by
            rw [hrest]
            rfl
          exact hfinal
      | none =>
        have hmc : d.mapCommit t = (d, d.entriesC, none) := mapCommit_none hp
        simp only [dirCommit] at h
        rw [hmc] at h
        cases rec with
        | false =>
          have h4 : some ((d, false) : DirState × Bool) = some (d', sync) := h
          injection h4 with h5
          have hd' : d = d' := congrArg Prod.fst h5
          have hs : (false : Bool) = sync := congrArg Prod.snd h5
          subst hd'
          subst hs
          simp only [dirCommit]
          rw [hmc]
          exact h
        | true =>
          have h3 : (commitChildren fuel t true d.entriesC d.txfs d.canon).bind
              (fun cc => some ((⟨cc.1, d.entriesP, d.entriesR,
                  d.entriesF, cc.2, d.txfs, d.txfsOnDisk⟩ : DirState), false))
              = some (d', sync) := h
          rw [Option.bind_eq_some] at h3
          obtain ⟨cc, hcc, h4⟩ := h3
          injection h4 with h5
          have hd' : (⟨cc.1, d.entriesP, d.entriesR,
              d.entriesF, cc.2, d.txfs, d.txfsOnDisk⟩ : DirState) = d' :=
            congrArg Prod.fst h5
          subst hd'
          have hrest := ihQ t true d.entriesC d.txfs d.canon cc
            hndC hwfC hcc cc.2 (commitChildren_nodup t true fuel _ _ _ cc hcc hndCanon)
            (fun n _ => rfl)
          have hp2 : alookup t (DirSt.entriesP
              (⟨cc.1, d.entriesP, d.entriesR,
                d.entriesF, cc.2, d.txfs, d.txfsOnDisk⟩ : DirState)) = none := hp
          simp only [dirCommit]
          rw [mapCommit_none hp2]
          have hfinal : (commitChildren fuel t true cc.1 d.txfs cc.2).bind
              (fun cc2 => some ((⟨cc2.1, d.entriesP, d.entriesR, d.entriesF,
                  cc2.2, d.txfs, d.txfsOnDisk⟩ : DirState), false))
              = some ((⟨cc.1, d.entriesP, d.entriesR, d.entriesF,
                  cc.2, d.txfs, d.txfsOnDisk⟩ : DirState), false) := by
            rw [hrest]
            rfl
          exact hfinal
    · intro t rec es txfs canon out hnd hwfL h canon2 hnd2 hpres
      cases es with
      | nil =>
        have h2 : some (([] : List (Ident × Entry)), canon) = some out := h
        injection h2 with h2e
        subst h2e
        rfl
      | cons p rest =>
        rcases p with ⟨name, e⟩
        have hnd3 : (!ahas name rest && nodupKeys rest) = true := hnd
        rw [Bool.and_eq_true] at hnd3
        obtain ⟨hnr, hndrest⟩ := hnd3
        rw [Bool.not_eq_true'] at hnr
        have hwf3 : (entryWf e && entriesWfL rest) = true := hwfL
        rw [Bool.and_eq_true] at hwf3
        obtain ⟨hwfe, hwfrest⟩ := hwf3
        cases e with
        | file lock =>
          have h2 : (fileCommitCore lock ((alookup name txfs).getD []) t).bind (fun fc =>
              (commitChildren fuel t rec rest txfs
                  (match fc.2 with | some b => aset name (.file b) canon | none => canon)).map
                (fun r => ((name, Entry.file fc.1) :: r.1, r.2))) = some out := h
          rw [Option.bind_eq_some] at h2
          obtain ⟨fc, hfc, h3⟩ := h2
          rw [Option.map_eq_some'] at h3
          obtain ⟨r, hr, h4⟩ := h3
          subst h4
          have hidem := fileCommitCore_idem hfc
          show (fileCommitCore fc.1 ((alookup name txfs).getD []) t).bind (fun fc2 =>
              (commitChildren fuel t rec r.1 txfs
                  (match fc2.2 with | some b => aset name (.file b) canon2 | none => canon2)).map
                (fun r2 => ((name, Entry.file fc2.1) :: r2.1, r2.2)))
              = some ((name, Entry.file fc.1) :: r.1, canon2)
          rw [Option.bind_eq_some]
          refine ⟨fc, hidem, ?_⟩
          cases hw : fc.2 with
          | some b =>
            rw [hw] at hr
            have halookupOut : alookup name r.2 = some (DTree.file b) := by
              rw [(commitChildren_canon t rec fuel rest txfs _ r hr).1 name hnr]
              exact alookup_aset_self name (DTree.file b) canon
            have hpresHead : alookup name canon2 = some (DTree.file b) := by
              rw [hpres name (by rw [ahas_cons]; simp)]
              exact halookupOut
            have hnoop : aset name (DTree.file b) canon2 = canon2 :=
              aset_noop hnd2 hpresHead
            have hrest := ihQ t rec rest txfs _ r hndrest hwfrest hr canon2 hnd2
              (fun n hn => hpres n (by rw [ahas_cons, hn]; simp))
            dsimp only
            rw [hnoop, Option.map_eq_some']
            exact ⟨(r.1, canon2), hrest, rfl⟩
          | none =>
            rw [hw] at hr
            have hrest := ihQ t rec rest txfs _ r hndrest hwfrest hr canon2 hnd2
              (fun n hn => hpres n (by rw [ahas_cons, hn]; simp))
            dsimp only
            rw [Option.map_eq_some']
            exact ⟨(r.1, canon2), hrest, rfl⟩
        | dir c =>
          have h2 : (dirCommit fuel t rec c).bind (fun cr =>
              (commitChildren fuel t rec rest txfs canon).map
                (fun r => ((name, Entry.dir cr.1) :: r.1, r.2))) = some out := h
          rw [Option.bind_eq_some] at h2
          obtain ⟨cr, hcr, h3⟩ := h2
          rw [Option.map_eq_some'] at h3
          obtain ⟨r, hr, h4⟩ := h3
          subst h4
          have hcr2 : dirCommit fuel t rec c = some (cr.1, cr.2) := hcr
          have hrec := ihP t rec c cr.1 cr.2 hwfe hcr2
          have hrest := ihQ t rec rest txfs canon r hndrest hwfrest hr canon2 hnd2
            (fun n hn => hpres n (by rw [ahas_cons, hn]; simp))
          show (dirCommit fuel t rec cr.1).bind (fun cr2 =>
              (commitChildren fuel t rec r.1 txfs canon2).map
                (fun r2 => ((name, Entry.dir cr2.1) :: r2.1, r2.2)))
              = some ((name, Entry.dir cr.1) :: r.1, canon2)
          rw [Option.bind_eq_some]
          refine ⟨(cr.1, false), hrec, ?_⟩
          dsimp only
          rw [Option.map_eq_some']
          exact ⟨(r.1, canon2), hrest, rfl⟩

theorem rollback_idem_aux :
    ∀ (fuel : Nat),
      (∀ (t : TxnId) (rec : Bool) (d d' : DirState),
        dirWf d = true → dirRollback fuel t rec d = some d' →
        dirRollback fuel t rec d' = some d')
      ∧ (∀ (t : TxnId) (rec : Bool) (es : List (Ident × Entry))
          (txfs : List (Ident × List (TxnId × Bytes)))
          (out : List (Ident × Entry) × List (Ident × List (TxnId × Bytes))),
          nodupKeys es = true → nodupKeys txfs = true → entriesWfL es = true →
          rollbackChildren fuel t rec es txfs = some out →
          rollbackChildren fuel t rec out.1 out.2 = some out) := by
  intro fuel
  induction fuel with
  | zero =>
    constructor
    · intro t rec d d' _ h
      simp [dirRollback] at h
    · intro t rec es txfs out _ _ _ h
      simp [rollbackChildren] at h
  | succ fuel ih =>
    obtain ⟨ihP, ihQ⟩ := ih
    constructor
    · intro t rec d d' hwf h
      have hwf2 : (nodupKeys d.entriesC && nodupKeys d.canon && nodupKeys d.txfs
          && entriesWfL d.entriesC && pendingWfL d.entriesP) = true := hwf
      simp only [Bool.and_eq_true] at hwf2
      obtain ⟨⟨⟨⟨hndC, hndCanon⟩, hndTxfs⟩, hwfC⟩, hwfP⟩ := hwf2
      cases rec with
      | false =>
        have h4 : some ((⟨d.entriesC, aremove t d.entriesP, d.entriesR, d.entriesF,
            d.canon, d.txfs, d.txfsOnDisk⟩ : DirState)) = some d' := h
        injection h4 with h5
        subst h5
        show some ((⟨d.entriesC, aremove t (aremove t d.entriesP), d.entriesR, d.entriesF,
            d.canon, d.txfs, d.txfsOnDisk⟩ : DirState))
            = some ((⟨d.entriesC, aremove t d.entriesP, d.entriesR, d.entriesF,
                d.canon, d.txfs, d.txfsOnDisk⟩ : DirState))
        rw [aremove_idem t d.entriesP]
      | true =>
        have h4 : (rollbackChildren fuel t true d.entriesC d.txfs).map
            (fun rc => (⟨rc.1, aremove t d.entriesP, d.entriesR, d.entriesF,
                d.canon, rc.2, d.txfsOnDisk⟩ : DirState)) = some d' := h
        rw [Option.map_eq_some'] at h4
        obtain ⟨rc, hrc, heq⟩ := h4
        subst heq
        have hrest := ihQ t true d.entriesC d.txfs rc hndC hndTxfs hwfC hrc
        show (rollbackChildren fuel t true rc.1 rc.2).map
            (fun rc2 => (⟨rc2.1, aremove t (aremove t d.entriesP), d.entriesR, d.entriesF,
                d.canon, rc2.2, d.txfsOnDisk⟩ : DirState))
            = some ((⟨rc.1, aremove t d.entriesP, d.entriesR, d.entriesF,
                d.canon, rc.2, d.txfsOnDisk⟩ : DirState))
        simp only [aremove_idem t d.entriesP]
        rw [hrest]
        rfl
    · intro t rec es txfs out hnd hndT hwfL h
      cases es with
      | nil =>
        have h2 : some (([] : List (Ident × Entry)), txfs) = some out := h
        injection h2 with h2e
        subst h2e
        rfl
      | cons p rest =>
        rcases p with ⟨name, e⟩
        have hnd3 : (!ahas name rest && nodupKeys rest) = true := hnd
        rw [Bool.and_eq_true] at hnd3
        obtain ⟨hnr, hndrest⟩ := hnd3
        rw [Bool.not_eq_true'] at hnr
        have hwf3 : (entryWf e && entriesWfL rest) = true := hwfL
        rw [Bool.and_eq_true] at hwf3
        obtain ⟨hwfe, hwfrest⟩ := hwf3
        cases e with
        | file lock =>
          have h2 : ((rollbackChildren fuel t rec rest
              (if (fileRollbackCore lock t).2
               then aset name (aremove t ((alookup name txfs).getD [])) txfs else txfs)).map
              (fun r2 => ((name, Entry.file (fileRollbackCore lock t).1) :: r2.1, r2.2)))
              = some out := h
          rw [Option.map_eq_some'] at h2
          obtain ⟨r2, hr2, heq⟩ := h2
          subst heq
          have hlock : (fileRollbackCore (fileRollbackCore lock t).1 t).1
              = (fileRollbackCore lock t).1 := by
            show (⟨lock.committed, aremove t (aremove t lock.pending), lock.finalized⟩ : SLock)
                = (⟨lock.committed, aremove t lock.pending, lock.finalized⟩ : SLock)
            rw [aremove_idem t lock.pending]
          cases hflag : (fileRollbackCore lock t).2 with
          | true =>
            rw [hflag] at hr2
            simp only [if_true] at hr2
            have htf := rollbackChildren_txfs t rec fuel rest
              (aset name (aremove t ((alookup name txfs).getD [])) txfs) r2 hr2
            have halookup : alookup name r2.2
                = some (aremove t ((alookup name txfs).getD [])) := by
              rw [htf.1 name hnr]
              exact alookup_aset_self name _ txfs
            have hndt2 : nodupKeys r2.2 = true := htf.2 (nodupKeys_aset hndT)
            have hrest := ihQ t rec rest
              (aset name (aremove t ((alookup name txfs).getD [])) txfs) r2
              hndrest (nodupKeys_aset hndT) hwfrest hr2
            have hflag2 : (fileRollbackCore (fileRollbackCore lock t).1 t).2 = true := hflag
            show ((rollbackChildren fuel t rec r2.1
                (if (fileRollbackCore (fileRollbackCore lock t).1 t).2
                 then aset name (aremove t ((alookup name r2.2).getD [])) r2.2 else r2.2)).map
                (fun r3 => ((name,
                    Entry.file (fileRollbackCore (fileRollbackCore lock t).1 t).1)
                  :: r3.1, r3.2)))
                = some ((name, Entry.file (fileRollbackCore lock t).1) :: r2.1, r2.2)
            rw [hflag2]
            simp only [if_true, hlock]
            rw [halookup]
            simp only [Option.getD_some]
            rw [aremove_idem t ((alookup name txfs).getD [])]
            rw [aset_noop hndt2 halookup]
            rw [Option.map_eq_some']
            exact ⟨r2, hrest, rfl⟩
          | false =>
            rw [hflag] at hr2
            simp only [Bool.false_eq_true, if_false] at hr2
            have hrest := ihQ t rec rest txfs r2 hndrest hndT hwfrest hr2
            have hflag2 : (fileRollbackCore (fileRollbackCore lock t).1 t).2 = false := hflag
            show ((rollbackChildren fuel t rec r2.1
                (if (fileRollbackCore (fileRollbackCore lock t).1 t).2
                 then aset name (aremove t ((alookup name r2.2).getD [])) r2.2 else r2.2)).map
                (fun r3 => ((name,
                    Entry.file (fileRollbackCore (fileRollbackCore lock t).1 t).1)
                  :: r3.1, r3.2)))
                = some ((name, Entry.file (fileRollbackCore lock t).1) :: r2.1, r2.2)
            rw [hflag2]
            simp only [Bool.false_eq_true, if_false, hlock]
            rw [Option.map_eq_some']
            exact ⟨r2, hrest, rfl⟩
        | dir c =>
          have h2 : ((dirRollback fuel t rec c).bind (fun c2 =>
              (rollbackChildren fuel t rec rest txfs).map
                (fun r2 => ((name, Entry.dir c2) :: r2.1, r2.2)))) = some out := h
          rw [Option.bind_eq_some] at h2
          obtain ⟨c2, hc2, h3⟩ := h2
          rw [Option.map_eq_some'] at h3
          obtain ⟨r2, hr2, h4⟩ := h3
          subst h4
          have hrec := ihP t rec c c2 hwfe hc2
          have hrest := ihQ t rec rest txfs r2 hndrest hndT hwfrest hr2
          show ((dirRollback fuel t rec c2).bind (fun c3 =>
              (rollbackChildren fuel t rec r2.1 r2.2).map
                (fun r3 => ((name, Entry.dir c3) :: r3.1, r3.2))))
              = some ((name, Entry.dir c2) :: r2.1, r2.2)
          rw [Option.bind_eq_some]
          refine ⟨c2, hrec, ?_⟩
          dsimp only
          rw [Option.map_eq_some']
          exact ⟨r2, hrest, rfl⟩

theorem dirFinalize_stable (t : TxnId) (ec : List (Ident × Entry))
    (ep : List (TxnId × List (Ident × Option Entry))) (er : List (TxnId × Ident))
    (canon : List (Ident × DTree)) (txfs : List (Ident × List (TxnId × Bytes)))
    (tod : Bool) :
    (Dir.finalize (⟨ec, ep.filter (fun p => decide (t < p.1)),
        er.filter (fun p => decide (t < p.1)), some t,
        canon.filter (fun p => decide (p.1 ∈ akeys ec) || startsDot p.1
          || !p.2.isEmptyDir),
        txfs.filter (fun p => decide (p.1 ∈ akeys ec) || startsDot p.1
          || !p.2.isEmpty),
        (if (txfs.filter (fun p => decide (p.1 ∈ akeys ec) || startsDot p.1
            || !p.2.isEmpty)).isEmpty then false else tod)⟩ : DirState) t).1
      = ⟨ec, ep.filter (fun p => decide (t < p.1)),
        er.filter (fun p => decide (t < p.1)), some t,
        canon.filter (fun p => decide (p.1 ∈ akeys ec) || startsDot p.1
          || !p.2.isEmptyDir),
        txfs.filter (fun p => decide (p.1 ∈ akeys ec) || startsDot p.1
          || !p.2.isEmpty),
        (if (txfs.filter (fun p => decide (p.1 ∈ akeys ec) || startsDot p.1
            || !p.2.isEmpty)).isEmpty then false else tod)⟩ := by
  unfold Dir.finalize DirSt.mapFinalize
  dsimp only
  rw [if_neg (lt_irrefl t)]
  dsimp only
  simp only [filter_idem]
  cases htv : (txfs.filter (fun p => decide (p.1 ∈ akeys ec) || startsDot p.1
      || !p.2.isEmpty)).isEmpty with
  | true => simp only [htv, if_true]
  | false => simp only [htv, Bool.false_eq_true, if_false]

theorem dirFinalize_idem (d : DirState) (t : TxnId) :
    (Dir.finalize (Dir.finalize d t).1 t).1 = (Dir.finalize d t).1 := by
  cases hf : d.entriesF with
  | some f =>
    by_cases hlt : t < f
    · have h1 : Dir.finalize d t = (d, false) := by
        unfold Dir.finalize DirSt.mapFinalize
        rw [hf]
        dsimp only
        rw [if_pos hlt]
      rw [h1]
      dsimp only
      rw [h1]
    · have h1 : Dir.finalize d t
          = ((⟨d.entriesC, d.entriesP.filter (fun p => decide (t < p.1)),
              d.entriesR.filter (fun p => decide (t < p.1)), some t,
              d.canon.filter (fun p => decide (p.1 ∈ akeys d.entriesC)
                || startsDot p.1 || !p.2.isEmptyDir),
              d.txfs.filter (fun p => decide (p.1 ∈ akeys d.entriesC)
                || startsDot p.1 || !p.2.isEmpty),
              (if (d.txfs.filter (fun p => decide (p.1 ∈ akeys d.entriesC)
                  || startsDot p.1 || !p.2.isEmpty)).isEmpty then false
               else d.txfsOnDisk)⟩ : DirState),
            (d.canon.any (fun p => !(decide (p.1 ∈ akeys d.entriesC)
                || startsDot p.1) && p.2.isEmptyDir))
              || (d.txfs.filter (fun p => decide (p.1 ∈ akeys d.entriesC)
                || startsDot p.1 || !p.2.isEmpty)).isEmpty) := by
        unfold Dir.finalize DirSt.mapFinalize
        rw [hf]
        dsimp only
        rw [if_neg hlt]
      rw [h1]
      dsimp only
      exact dirFinalize_stable t d.entriesC d.entriesP d.entriesR d.canon d.txfs d.txfsOnDisk
  | none =>
    have h1 : Dir.finalize d t
        = ((⟨d.entriesC, d.entriesP.filter (fun p => decide (t < p.1)),
            d.entriesR.filter (fun p => decide (t < p.1)), some t,
            d.canon.filter (fun p => decide (p.1 ∈ akeys d.entriesC)
              || startsDot p.1 || !p.2.isEmptyDir),
            d.txfs.filter (fun p => decide (p.1 ∈ akeys d.entriesC)
              || startsDot p.1 || !p.2.isEmpty),
            (if (d.txfs.filter (fun p => decide (p.1 ∈ akeys d.entriesC)
                || startsDot p.1 || !p.2.isEmpty)).isEmpty then false
             else d.txfsOnDisk)⟩ : DirState),
          (d.canon.any (fun p => !(decide (p.1 ∈ akeys d.entriesC)
              || startsDot p.1) && p.2.isEmptyDir))
            || (d.txfs.filter (fun p => decide (p.1 ∈ akeys d.entriesC)
              || startsDot p.1 || !p.2.isEmpty)).isEmpty) := by
      unfold Dir.finalize DirSt.mapFinalize
      rw [hf]
    rw [h1]
    dsimp only
    exact dirFinalize_stable t d.entriesC d.entriesP d.entriesR d.canon d.txfs d.txfsOnDisk

/-- C8: repeating `commit`, `rollback` or `finalize` at the same transaction
id is an observable no-op. A second `File::commit(t)` after a successful one
yields the same state; `File::rollback(t)` and `File::finalize(t)` are
idempotent on the file state; a second `Dir::commit(t, recursive)` on a
well-formed directory succeeds, leaves the state unchanged and needs no sync;
a second `Dir::rollback(t, recursive)` leaves the state unchanged; and a
second `Dir::finalize(t)` leaves the directory state unchanged. -/
theorem commit_rollback_finalize_idempotent :
    (∀ (s s' : FileState) (t : TxnId),
      FileState.commit s t = some s' → FileState.commit s' t = some s')
    ∧ (∀ (s : FileState) (t : TxnId), (s.rollback t).rollback t = s.rollback t)
    ∧ (∀ (s : FileState) (t : TxnId), (s.finalize t).finalize t = s.finalize t)
    ∧ (∀ (fuel : Nat) (t : TxnId) (rec : Bool) (d d' : DirState) (sync : Bool),
        dirWf d = true → dirCommit fuel t rec d = some (d', sync) →
        dirCommit fuel t rec d' = some (d', false))
    ∧ (∀ (fuel : Nat) (t : TxnId) (rec : Bool) (d d' : DirState),
        dirWf d = true → dirRollback fuel t rec d = some d' →
        dirRollback fuel t rec d' = some d')
    ∧ (∀ (d : DirState) (t : TxnId),
        (Dir.finalize (Dir.finalize d t).1 t).1 = (Dir.finalize d t).1) :=
  ⟨fun _ _ _ h => fileCommit_idem h,
   fileRollback_idem,
   fileFinalize_idem,
   fun fuel t rec d d' sync hwf h => (commit_idem_aux fuel).1 t rec d d' sync hwf h,
   fun fuel t rec d d' hwf h => (rollback_idem_aux fuel).1 t rec d d' hwf h,
   dirFinalize_idem⟩

/-- Witness for C8 at concrete states: re-committing the file `fileEx` at
txn 1 returns the committed state unchanged, and re-committing the directory
`dirEx7b` (after its commit at txn 1 produced `dirEmptyEx` with a sync)
returns `dirEmptyEx` unchanged with no sync. -/
theorem commit_rollback_finalize_idempotent_witness :
    FileState.commit fileEx 1 = some ⟨SLock.new 1, [(1, [7])], some [7]⟩
    ∧ FileState.commit ⟨SLock.new 1, [(1, [7])], some [7]⟩ 1
      = some ⟨SLock.new 1, [(1, [7])], some [7]⟩
    ∧ dirWf dirEx7b = true
    ∧ dirCommit 1 1 false dirEx7b = some (dirEmptyEx, true)
    ∧ dirCommit 1 1 false dirEmptyEx = some (dirEmptyEx, false) :=
  ⟨rfl,
   commit_rollback_finalize_idempotent.1 fileEx ⟨SLock.new 1, [(1, [7])], some [7]⟩ 1 rfl,
   rfl, rfl,
   commit_rollback_finalize_idempotent.2.2.2.1 1 1 false dirEx7b dirEmptyEx true rfl rfl⟩

theorem entriesNoDot_lookup :
    ∀ {l : List (Ident × Entry)} {n : Ident} {e : Entry},
      entriesNoDot l = true → alookup n l = some e →
      startsDot n = false ∧ entryNoDot e = true := by
  intro l
  induction l with
  | nil => intro n e _ h; exact Option.noConfusion h
  | cons p rest ih =>
    intro n e hnd h
    rcases p with ⟨k, e1⟩
    have hnd2 : (! startsDot k && entryNoDot e1 && entriesNoDot rest) = true := hnd
    simp only [Bool.and_eq_true, Bool.not_eq_true'] at hnd2
    obtain ⟨⟨hk, he1⟩, hrest⟩ := hnd2
    by_cases hkn : k = n
    · subst hkn
      have h2 : alookup k ((k, e1) :: rest) = some e1 := by simp [alookup]
      rw [h2] at h
      injection h with h3
      subst h3
      exact ⟨hk, he1⟩
    · have h2 : alookup n ((k, e1) :: rest) = alookup n rest := by simp [alookup, hkn]
      rw [h2] at h
      exact ih hrest h

theorem entriesNoDot_filterL {p : Ident × Entry → Bool} :
    ∀ {l : List (Ident × Entry)}, entriesNoDot l = true →
      entriesNoDot (l.filter p) = true := by
  intro l
  induction l with
  | nil => intro _; rfl
  | cons q rest ih =>
    intro h
    rcases q with ⟨k, e⟩
    have h2 : (! startsDot k && entryNoDot e && entriesNoDot rest) = true := h
    simp only [Bool.and_eq_true] at h2
    obtain ⟨⟨hk, he⟩, hrest⟩ := h2
    simp only [List.filter_cons]
    by_cases hq : p (k, e) = true
    · rw [if_pos hq]
      show (! startsDot k && entryNoDot e && entriesNoDot (rest.filter p)) = true
      simp only [Bool.and_eq_true]
      exact ⟨⟨hk, he⟩, ih hrest⟩
    · rw [if_neg hq]
      exact ih hrest

theorem entriesNoDot_asetL {n : Ident} {e : Entry}
    (hn : startsDot n = false) (he : entryNoDot e = true) :
    ∀ {l : List (Ident × Entry)}, entriesNoDot l = true →
      entriesNoDot (aset n e l) = true := by
  intro l
  induction l with
  | nil =>
    intro _
    show (! startsDot n && entryNoDot e && entriesNoDot []) = true
    simp only [Bool.and_eq_true, Bool.not_eq_true']
    exact ⟨⟨hn, he⟩, rfl⟩
  | cons q rest ih =>
    intro h
    rcases q with ⟨k, e1⟩
    have h2 : (! startsDot k && entryNoDot e1 && entriesNoDot rest) = true := h
    simp only [Bool.and_eq_true] at h2
    obtain ⟨⟨hk, he1⟩, hrest⟩ := h2
    unfold aset
    cases hh : ahas n ((k, e1) :: rest) with
    | false =>
      simp only [Bool.false_eq_true, if_false]
      show (! startsDot n && entryNoDot e && entriesNoDot ((k, e1) :: rest)) = true
      simp only [Bool.and_eq_true, Bool.not_eq_true']
      exact ⟨⟨hn, he⟩, h⟩
    | true =>
      simp only [if_true, List.map_cons]
      have hih := ih hrest
      unfold aset at hih
      by_cases h1k : k = n
      · rw [show (if ((k, e1) : Ident × Entry).1 = n then (n, e) else (k, e1))
            = (n, e) from by simp [h1k]]
        show (! startsDot n && entryNoDot e
            && entriesNoDot (rest.map (fun p => if p.1 = n then (n, e) else p))) = true
        simp only [Bool.and_eq_true, Bool.not_eq_true']
        refine ⟨⟨hn, he⟩, ?_⟩
        cases hh2 : ahas n rest with
        | true =>
          rw [hh2] at hih
          simp only [if_true] at hih
          exact hih
        | false =>
          rw [map_replace_id hh2]
          exact hrest
      · rw [show (if ((k, e1) : Ident × Entry).1 = n then (n, e) else (k, e1))
            = (k, e1) from by simp [h1k]]
        show (! startsDot k && entryNoDot e1
            && entriesNoDot (rest.map (fun p => if p.1 = n then (n, e) else p))) = true
        simp only [Bool.and_eq_true]
        refine ⟨⟨hk, he1⟩, ?_⟩
        cases hh2 : ahas n rest with
        | true =>
          rw [hh2] at hih
          simp only [if_true] at hih
          exact hih
        | false =>
          rw [map_replace_id hh2]
          exact hrest

theorem entriesNoDot_applyDeltasL :
    ∀ (ds : List (Ident × Option Entry)) {base : List (Ident × Entry)},
      deltasNoDot ds = true → entriesNoDot base = true →
      entriesNoDot (applyDeltas ds base) = true := by
  intro ds
  induction ds with
  | nil => intro base _ h; exact h
  | cons d rest ih =>
    intro base hds h
    rcases d with ⟨k, v⟩
    cases v with
    | some e =>
      have h2 : (! startsDot k && entryNoDot e && deltasNoDot rest) = true := hds
      simp only [Bool.and_eq_true, Bool.not_eq_true'] at h2
      obtain ⟨⟨hk, he⟩, hrest⟩ := h2
      exact ih hrest (entriesNoDot_asetL hk he h)
    | none =>
      have h2 : (! startsDot k && true && deltasNoDot rest) = true := hds
      simp only [Bool.and_eq_true] at h2
      exact ih h2.2 (entriesNoDot_filterL h)

theorem pendingNoDot_filterL {p : TxnId × List (Ident × Option Entry) → Bool} :
    ∀ {ps : List (TxnId × List (Ident × Option Entry))}, pendingNoDot ps = true →
      pendingNoDot (ps.filter p) = true := by
  intro ps
  induction ps with
  | nil => intro _; rfl
  | cons q rest ih =>
    intro h
    rcases q with ⟨t1, ds1⟩
    have h2 : (deltasNoDot ds1 && pendingNoDot rest) = true := h
    rw [Bool.and_eq_true] at h2
    simp only [List.filter_cons]
    by_cases hq : p (t1, ds1) = true
    · rw [if_pos hq]
      show (deltasNoDot ds1 && pendingNoDot (rest.filter p)) = true
      rw [Bool.and_eq_true]
      exact ⟨h2.1, ih h2.2⟩
    · rw [if_neg hq]
      exact ih h2.2

theorem pendingNoDot_lookupL {t : TxnId} :
    ∀ {ps : List (TxnId × List (Ident × Option Entry))} {ds : List (Ident × Option Entry)},
      pendingNoDot ps = true → alookup t ps = some ds → deltasNoDot ds = true := by
  intro ps
  induction ps with
  | nil => intro ds _ h; exact Option.noConfusion h
  | cons q rest ih =>
    intro ds hnd h
    rcases q with ⟨t1, ds1⟩
    have h2 : (deltasNoDot ds1 && pendingNoDot rest) = true := hnd
    rw [Bool.and_eq_true] at h2
    by_cases ht : t1 = t
    · have h3 : alookup t ((t1, ds1) :: rest) = some ds1 := by simp [alookup, ht]
      rw [h3] at h
      injection h with h4
      subst h4
      exact h2.1
    · have h3 : alookup t ((t1, ds1) :: rest) = alookup t rest := by simp [alookup, ht]
      rw [h3] at h
      exact ih h2.2 h

theorem pendingNoDot_asetL {t : TxnId} {v : List (Ident × Option Entry)}
    (hv : deltasNoDot v = true) :
    ∀ {ps : List (TxnId × List (Ident × Option Entry))}, pendingNoDot ps = true →
      pendingNoDot (aset t v ps) = true := by
  intro ps
  induction ps with
  | nil =>
    intro _
    show (deltasNoDot v && pendingNoDot []) = true
    rw [Bool.and_eq_true]
    exact ⟨hv, rfl⟩
  | cons q rest ih =>
    intro h
    rcases q with ⟨t1, ds1⟩
    have h2 : (deltasNoDot ds1 && pendingNoDot rest) = true := h
    rw [Bool.and_eq_true] at h2
    unfold aset
    cases hh : ahas t ((t1, ds1) :: rest) with
    | false =>
      simp only [Bool.false_eq_true, if_false]
      show (deltasNoDot v && pendingNoDot ((t1, ds1) :: rest)) = true
      rw [Bool.and_eq_true]
      exact ⟨hv, h⟩
    | true =>
      simp only [if_true, List.map_cons]
      have hih := ih h2.2
      unfold aset at hih
      by_cases h1k : t1 = t
      · rw [show (if ((t1, ds1) : TxnId × List (Ident × Option Entry)).1 = t
            then (t, v) else (t1, ds1)) = (t, v) from by simp [h1k]]
        show (deltasNoDot v
            && pendingNoDot (rest.map (fun p => if p.1 = t then (t, v) else p))) = true
        rw [Bool.and_eq_true]
        refine ⟨hv, ?_⟩
        cases hh2 : ahas t rest with
        | true =>
          rw [hh2] at hih
          simp only [if_true] at hih
          exact hih
        | false =>
          rw [map_replace_id hh2]
          exact h2.2
      · rw [show (if ((t1, ds1) : TxnId × List (Ident × Option Entry)).1 = t
            then (t, v) else (t1, ds1)) = (t1, ds1) from by simp [h1k]]
        show (deltasNoDot ds1
            && pendingNoDot (rest.map (fun p => if p.1 = t then (t, v) else p))) = true
        rw [Bool.and_eq_true]
        refine ⟨h2.1, ?_⟩
        cases hh2 : ahas t rest with
        | true =>
          rw [hh2] at hih
          simp only [if_true] at hih
          exact hih
        | false =>
          rw [map_replace_id hh2]
          exact h2.2

theorem deltasNoDot_asetL {n : Ident} {v : Option Entry}
    (hn : startsDot n = false)
    (hv : v.elim True (fun e => entryNoDot e = true)) :
    ∀ {ds : List (Ident × Option Entry)}, deltasNoDot ds = true →
      deltasNoDot (aset n v ds) = true := by
  intro ds
  induction ds with
  | nil =>
    intro _
    cases v with
    | some e =>
      show (! startsDot n && entryNoDot e && deltasNoDot []) = true
      simp only [Bool.and_eq_true, Bool.not_eq_true']
      exact ⟨⟨hn, hv⟩, rfl⟩
    | none =>
      show (! startsDot n && true && deltasNoDot []) = true
      simp only [Bool.and_eq_true, Bool.not_eq_true']
      exact ⟨⟨hn, True.intro⟩, rfl⟩
  | cons q rest ih =>
    intro h
    rcases q with ⟨k, v1⟩
    unfold aset
    cases hh : ahas n ((k, v1) :: rest) with
    | false =>
      simp only [Bool.false_eq_true, if_false]
      cases v with
      | some e =>
        show (! startsDot n && entryNoDot e && deltasNoDot ((k, v1) :: rest)) = true
        simp only [Bool.and_eq_true, Bool.not_eq_true']
        exact ⟨⟨hn, hv⟩, h⟩
      | none =>
        show (! startsDot n && true && deltasNoDot ((k, v1) :: rest)) = true
        simp only [Bool.and_eq_true, Bool.not_eq_true']
        exact ⟨⟨hn, True.intro⟩, h⟩
    | true =>
      simp only [if_true, List.map_cons]
      cases v1 with
      | some e1 =>
        have h2 : (! startsDot k && entryNoDot e1 && deltasNoDot rest) = true := h
        simp only [Bool.and_eq_true] at h2
        obtain ⟨⟨hk, he1⟩, hrest⟩ := h2
        have hih := ih hrest
        unfold aset at hih
        by_cases h1k : k = n
        · rw [show (if ((k, some e1) : Ident × Option Entry).1 = n
              then (n, v) else (k, some e1)) = (n, v) from by simp [h1k]]
          have htail : deltasNoDot
              (rest.map (fun p => if p.1 = n then (n, v) else p)) = true := by
            cases hh2 : ahas n rest with
            | true =>
              rw [hh2] at hih
              simp only [if_true] at hih
              exact hih
            | false =>
              rw [map_replace_id hh2]
              exact hrest
          cases v with
          | some e =>
            show (! startsDot n && entryNoDot e && _) = true
            simp only [Bool.and_eq_true, Bool.not_eq_true']
            exact ⟨⟨hn, hv⟩, htail⟩
          | none =>
            show (! startsDot n && true && _) = true
            simp only [Bool.and_eq_true, Bool.not_eq_true']
            exact ⟨⟨hn, True.intro⟩, htail⟩
        · rw [show (if ((k, some e1) : Ident × Option Entry).1 = n
              then (n, v) else (k, some e1)) = (k, some e1) from by simp [h1k]]
          have htail : deltasNoDot
              (rest.map (fun p => if p.1 = n then (n, v) else p)) = true := by
            cases hh2 : ahas n rest with
            | true =>
              rw [hh2] at hih
              simp only [if_true] at hih
              exact hih
            | false =>
              rw [map_replace_id hh2]
              exact hrest
          show (! startsDot k && entryNoDot e1 && _) = true
          simp only [Bool.and_eq_true]
          exact ⟨⟨hk, he1⟩, htail⟩
      | none =>
        have h2 : (! startsDot k && true && deltasNoDot rest) = true := h
        simp only [Bool.and_eq_true, Bool.not_eq_true'] at h2
        obtain ⟨⟨hk, _⟩, hrest⟩ := h2
        have hih := ih hrest
        unfold aset at hih
        by_cases h1k : k = n
        · rw [show (if ((k, (none : Option Entry)) : Ident × Option Entry).1 = n
              then (n, v) else (k, none)) = (n, v) from by simp [h1k]]
          have htail : deltasNoDot
              (rest.map (fun p => if p.1 = n then (n, v) else p)) = true := by
            cases hh2 : ahas n rest with
            | true =>
              rw [hh2] at hih
              simp only [if_true] at hih
              exact hih
            | false =>
              rw [map_replace_id hh2]
              exact hrest
          cases v with
          | some e =>
            show (! startsDot n && entryNoDot e && _) = true
            simp only [Bool.and_eq_true, Bool.not_eq_true']
            exact ⟨⟨hn, hv⟩, htail⟩
          | none =>
            show (! startsDot n && true && _) = true
            simp only [Bool.and_eq_true, Bool.not_eq_true']
            exact ⟨⟨hn, True.intro⟩, htail⟩
        · rw [show (if ((k, (none : Option Entry)) : Ident × Option Entry).1 = n
              then (n, v) else (k, none)) = (k, none) from by simp [h1k]]
          have htail : deltasNoDot
              (rest.map (fun p => if p.1 = n then (n, v) else p)) = true := by
            cases hh2 : ahas n rest with
            | true =>
              rw [hh2] at hih
              simp only [if_true] at hih
              exact hih
            | false =>
              rw [map_replace_id hh2]
              exact hrest
          show (! startsDot k && true && _) = true
          simp only [Bool.and_eq_true, Bool.not_eq_true']
          exact ⟨⟨hk, True.intro⟩, htail⟩

theorem allFilter {α : Type} {P q : α → Bool} :
    ∀ {l : List α}, l.all P = true → (l.filter q).all P = true := by
  intro l
  induction l with
  | nil => intro _; rfl
  | cons x rest ih =>
    intro h
    rw [List.all_cons, Bool.and_eq_true] at h
    simp only [List.filter_cons]
    by_cases hq : q x = true
    · rw [if_pos hq, List.all_cons, Bool.and_eq_true]
      exact ⟨h.1, ih h.2⟩
    · rw [if_neg hq]
      exact ih h.2

theorem dirNoDot_fields {d : DirState} (h : dirNoDot d = true) :
    entriesNoDot d.entriesC = true ∧ pendingNoDot d.entriesP = true
    ∧ d.entriesR.all (fun p => ! startsDot p.2) = true := by
  have h2 : (entriesNoDot d.entriesC && pendingNoDot d.entriesP
      && d.entriesR.all (fun p => ! startsDot p.2)) = true := h
  simp only [Bool.and_eq_true] at h2
  exact ⟨h2.1.1, h2.1.2, h2.2⟩

theorem dirNoDot_intro {d : DirState} (h1 : entriesNoDot d.entriesC = true)
    (h2 : pendingNoDot d.entriesP = true)
    (h3 : d.entriesR.all (fun p => ! startsDot p.2) = true) :
    dirNoDot d = true := by
  show (entriesNoDot d.entriesC && pendingNoDot d.entriesP
      && d.entriesR.all (fun p => ! startsDot p.2)) = true
  simp only [Bool.and_eq_true]
  exact ⟨⟨h1, h2⟩, h3⟩

theorem deltasAt_noDotL {d : DirState} {t : TxnId} (h : pendingNoDot d.entriesP = true) :
    deltasNoDot (d.deltasAt t) = true := by
  unfold DirSt.deltasAt
  cases hp : alookup t d.entriesP with
  | some ds => exact pendingNoDot_lookupL h hp
  | none => rfl

theorem visible_noDotL {d : DirState} {t : TxnId} (h : dirNoDot d = true) :
    entriesNoDot (d.visible t) = true := by
  obtain ⟨h1, h2, _⟩ := dirNoDot_fields h
  exact entriesNoDot_applyDeltasL _ (deltasAt_noDotL h2) h1

theorem addDelta_noDot {d : DirState} {t : TxnId} {k : Ident} {v : Option Entry}
    (h : dirNoDot d = true) (hk : startsDot k = false)
    (hv : v.elim True (fun e => entryNoDot e = true)) :
    dirNoDot (d.addDelta t k v) = true := by
  obtain ⟨h1, h2, h3⟩ := dirNoDot_fields h
  refine dirNoDot_intro ?_ ?_ ?_
  · exact h1
  · show pendingNoDot (aset t (aset k v (d.deltasAt t)) d.entriesP) = true
    exact pendingNoDot_asetL (deltasNoDot_asetL hk hv (deltasAt_noDotL h2)) h2
  · exact h3

theorem entriesNoDot_keysL :
    ∀ {l : List (Ident × Entry)}, entriesNoDot l = true →
      l.all (fun p => ! startsDot p.1) = true := by
  intro l
  induction l with
  | nil => intro _; rfl
  | cons p rest ih =>
    intro h
    rcases p with ⟨k, e⟩
    have h2 : (! startsDot k && entryNoDot e && entriesNoDot rest) = true := h
    simp only [Bool.and_eq_true] at h2
    rw [List.all_cons, Bool.and_eq_true]
    exact ⟨h2.1.1, ih h2.2⟩

theorem foldl_addDelta_noDot (t : TxnId) :
    ∀ (ks : List (Ident × Entry)) (d : DirState),
      dirNoDot d = true → ks.all (fun p => ! startsDot p.1) = true →
      dirNoDot (ks.foldl (fun acc p => acc.addDelta t p.1 none) d) = true := by
  intro ks
  induction ks with
  | nil => intro d h _; exact h
  | cons p rest ih =>
    intro d h hks
    rw [List.all_cons, Bool.and_eq_true] at hks
    simp only [List.foldl_cons]
    refine ih (d.addDelta t p.1 none) ?_ hks.2
    refine addDelta_noDot h ?_ True.intro
    have h5 := hks.1
    rw [Bool.not_eq_true'] at h5
    exact h5

mutual

theorem dirLoad_noDot (t : TxnId) :
    ∀ (cs : List (Ident × DTree)), dirNoDot (dirLoad t cs) = true :=
  fun cs => by
    unfold dirLoad
    refine dirNoDot_intro ?_ ?_ ?_
    · show entriesNoDot (loadChildren t cs).1 = true
      exact loadChildren_noDot t cs
    · rfl
    · rfl

theorem loadChildren_noDot (t : TxnId) :
    ∀ (cs : List (Ident × DTree)), entriesNoDot (loadChildren t cs).1 = true
  | [] => by
    unfold loadChildren
    rfl
  | (name, node) :: rest => by
    unfold loadChildren
    dsimp only
    by_cases hdot : startsDot name = true
    · rw [if_pos hdot]
      exact loadChildren_noDot t rest
    · rw [if_neg hdot]
      rw [Bool.not_eq_true] at hdot
      cases node with
      | file b =>
        show (! startsDot name && entryNoDot (Entry.file (SLock.new t))
            && entriesNoDot (loadChildren t rest).1) = true
        simp only [Bool.and_eq_true, Bool.not_eq_true']
        exact ⟨⟨hdot, rfl⟩, loadChildren_noDot t rest⟩
      | dir cs =>
        show (! startsDot name && entryNoDot (Entry.dir (dirLoad t cs))
            && entriesNoDot (loadChildren t rest).1) = true
        simp only [Bool.and_eq_true, Bool.not_eq_true']
        exact ⟨⟨hdot, dirLoad_noDot t cs⟩, loadChildren_noDot t rest⟩

end

theorem createSlot_noDot {d : DirState} {t : TxnId} {name : Ident} {e : Entry}
    (h : dirNoDot d = true) (hn : startsDot name = false)
    (he : entryNoDot e = true) :
    dirNoDot ((d.reserve t name).insertReserved t name e) = true := by
  obtain ⟨h1, h2, h3⟩ := dirNoDot_fields h
  have hres : dirNoDot (d.reserve t name) = true := by
    refine dirNoDot_intro h1 h2 ?_
    show ((t, name) :: d.entriesR).all (fun p => ! startsDot p.2) = true
    rw [List.all_cons, Bool.and_eq_true]
    refine ⟨?_, h3⟩
    show (! startsDot name) = true
    rw [Bool.not_eq_true']
    exact hn
  have hadd : dirNoDot ((d.reserve t name).addDelta t name (some e)) = true :=
    addDelta_noDot hres hn he
  obtain ⟨g1, g2, g3⟩ := dirNoDot_fields hadd
  exact dirNoDot_intro g1 g2 (allFilter g3)

theorem createDir_noDot {d : DirState} {t : TxnId} {name : Ident}
    (h : dirNoDot d = true) (hn : startsDot name = false) :
    dirNoDot (Dir.createDir d t name).1 = true := by
  unfold Dir.createDir
  by_cases hocc : d.occupied t name = true
  · rw [if_pos hocc]
    exact h
  · rw [if_neg hocc]
    cases hc : alookup name d.canon with
    | some node =>
      cases node with
      | file b => exact h
      | dir cs => exact createSlot_noDot h hn (dirLoad_noDot t cs)
    | none => exact createSlot_noDot h hn (dirLoad_noDot t [])

theorem createFile_noDot {d : DirState} {t : TxnId} {name : Ident} {contents : Bytes}
    (h : dirNoDot d = true) (hn : startsDot name = false) :
    dirNoDot (Dir.createFile d t name contents).1 = true := by
  unfold Dir.createFile
  by_cases hocc : d.occupied t name = true
  · rw [if_pos hocc]
    exact h
  · rw [if_neg hocc]
    dsimp only
    by_cases hv : ahas t ((alookup name d.txfs).getD []) = true
    · rw [if_pos hv]
      exact h
    · rw [if_neg hv]
      exact createSlot_noDot h hn rfl

theorem delete_noDot {fuel : Nat} {t : TxnId} {d : DirState} {name : Ident}
    {out : DirState × Option Entry × Bool}
    (h : dirNoDot d = true) (hdel : Dir.delete fuel t d name = some out) :
    dirNoDot out.1 = true := by
  cases hv : alookup name (d.visible t) with
  | none =>
    have hD : Dir.delete fuel t d name = some (d, none, false) := by
      unfold Dir.delete DirSt.mapRemove
      rw [hv]
    rw [hD] at hdel
    injection hdel with h2
    rw [← h2]
    exact h
  | some e =>
    have hn : startsDot name = false :=
      (entriesNoDot_lookup (visible_noDotL h) hv).1
    have hadd : dirNoDot (d.addDelta t name none) = true :=
      addDelta_noDot h hn True.intro
    cases e with
    | file lock =>
      have hD : Dir.delete fuel t d name
          = some (d.addDelta t name none, some (Entry.file lock), true) := by
        unfold Dir.delete DirSt.mapRemove
        rw [hv]
      rw [hD] at hdel
      injection hdel with h2
      rw [← h2]
      exact hadd
    | dir c =>
      cases htr : dirTruncate fuel t c with
      | none =>
        have hD : Dir.delete fuel t d name = none := by
          unfold Dir.delete DirSt.mapRemove
          rw [hv]
          dsimp only
          rw [htr]
        rw [hD] at hdel
        exact Option.noConfusion hdel
      | some cr =>
        have hD : Dir.delete fuel t d name
            = some (d.addDelta t name none, some (Entry.dir cr.1), true) := by
          unfold Dir.delete DirSt.mapRemove
          rw [hv]
          dsimp only
          rw [htr]
        rw [hD] at hdel
        injection hdel with h2
        rw [← h2]
        exact hadd

theorem truncate_noDot {fuel : Nat} {t : TxnId} {d : DirState}
    {out : DirState × List (Ident × Entry)}
    (h : dirNoDot d = true) (htr : dirTruncate fuel t d = some out) :
    dirNoDot out.1 = true := by
  cases fuel with
  | zero => simp [dirTruncate] at htr
  | succ fuel =>
    have hfold : dirNoDot (d.mapClear t).1 = true :=
      foldl_addDelta_noDot t (d.visible t) d h (entriesNoDot_keysL (visible_noDotL h))
    cases hrem : truncateRemoved fuel t (d.mapClear t).2 with
    | none =>
      have hD : dirTruncate (fuel + 1) t d = none := by
        unfold dirTruncate
        dsimp only
        rw [hrem]
      rw [hD] at htr
      exact Option.noConfusion htr
    | some cleared =>
      have hD : dirTruncate (fuel + 1) t d = some ((d.mapClear t).1, cleared) := by
        unfold dirTruncate
        dsimp only
        rw [hrem]
      rw [hD] at htr
      injection htr with h2
      rw [← h2]
      exact hfold

theorem commit_noDot_aux :
    ∀ (fuel : Nat),
      (∀ (t : TxnId) (rec : Bool) (d : DirState) (out : DirState × Bool),
        dirNoDot d = true → dirCommit fuel t rec d = some out → dirNoDot out.1 = true)
      ∧ (∀ (t : TxnId) (rec : Bool) (es : List (Ident × Entry))
          (txfs : List (Ident × List (TxnId × Bytes))) (canon : List (Ident × DTree))
          (out : List (Ident × Entry) × List (Ident × DTree)),
          entriesNoDot es = true → commitChildren fuel t rec es txfs canon = some out →
          entriesNoDot out.1 = true) := by
  intro fuel
  induction fuel with
  | zero =>
    constructor
    · intro t rec d out _ h
      simp [dirCommit] at h
    · intro t rec es txfs canon out _ h
      simp [commitChildren] at h
  | succ fuel ih =>
    obtain ⟨ihP, ihQ⟩ := ih
    constructor
    · intro t rec d out hnd h
      obtain ⟨h1, h2, h3⟩ := dirNoDot_fields hnd
      cases hp : alookup t d.entriesP with
      | some ds =>
        have hmc : d.mapCommit t
            = ((⟨applyDeltas ds d.entriesC, aremove t d.entriesP, d.entriesR, d.entriesF,
                  d.canon, d.txfs, d.txfsOnDisk⟩ : DirState),
                applyDeltas ds d.entriesC, some ds) := by
          unfold DirSt.mapCommit
          rw [hp]
        simp only [dirCommit] at h
        rw [hmc] at h
        have hec : entriesNoDot (applyDeltas ds d.entriesC) = true :=
          entriesNoDot_applyDeltasL ds (pendingNoDot_lookupL h2 hp) h1
        cases rec with
        | false =>
          have h4 : (deleteDeltas ds (applyDeltas ds d.entriesC) d.canon).map
              (fun dd => ((⟨applyDeltas ds d.entriesC, aremove t d.entriesP, d.entriesR,
                  d.entriesF, dd.1, d.txfs, d.txfsOnDisk⟩ : DirState), dd.2))
              = some out := h
          rw [Option.map_eq_some'] at h4
          obtain ⟨dd, hdd, heq⟩ := h4
          rw [← heq]
          exact dirNoDot_intro hec (pendingNoDot_filterL h2) h3
        | true =>
          have h4 : (commitChildren fuel t true (applyDeltas ds d.entriesC)
                d.txfs d.canon).bind
              (fun cc => (deleteDeltas ds cc.1 cc.2).map
                (fun dd => ((⟨cc.1, aremove t d.entriesP, d.entriesR,
                    d.entriesF, dd.1, d.txfs, d.txfsOnDisk⟩ : DirState), dd.2)))
              = some out := h
          rw [Option.bind_eq_some] at h4
          obtain ⟨cc, hcc, h5⟩ := h4
          rw [Option.map_eq_some'] at h5
          obtain ⟨dd, hdd, heq⟩ := h5
          rw [← heq]
          exact dirNoDot_intro (ihQ t true _ d.txfs d.canon cc hec hcc)
            (pendingNoDot_filterL h2) h3
      | none =>
        have hmc : d.mapCommit t = (d, d.entriesC, none) := mapCommit_none hp
        simp only [dirCommit] at h
        rw [hmc] at h
        cases rec with
        | false =>
          have h4 : some ((d, false) : DirState × Bool) = some out := h
          injection h4 with h5
          rw [← h5]
          exact hnd
        | true =>
          have h4 : (commitChildren fuel t true d.entriesC d.txfs d.canon).bind
              (fun cc => some ((⟨cc.1, d.entriesP, d.entriesR,
                  d.entriesF, cc.2, d.txfs, d.txfsOnDisk⟩ : DirState), false))
              = some out := h
          rw [Option.bind_eq_some] at h4
          obtain ⟨cc, hcc, h5⟩ := h4
          injection h5 with h6
          rw [← h6]
          exact dirNoDot_intro (ihQ t true d.entriesC d.txfs d.canon cc h1 hcc) h2 h3
    · intro t rec es txfs canon out hnd h
      cases es with
      | nil =>
        have h2 : some (([] : List (Ident × Entry)), canon) = some out := h
        injection h2 with h2e
        rw [← h2e]
        rfl
      | cons p rest =>
        rcases p with ⟨name, e⟩
        have hnd2 : (! startsDot name && entryNoDot e && entriesNoDot rest)
            = true := hnd
        simp only [Bool.and_eq_true] at hnd2
        obtain ⟨⟨hk, he⟩, hrest⟩ := hnd2
        cases e with
        | file lock =>
          have h2 : (fileCommitCore lock ((alookup name txfs).getD []) t).bind (fun fc =>
              (commitChildren fuel t rec rest txfs
                  (match fc.2 with | some b => aset name (.file b) canon | none => canon)).map
                (fun r => ((name, Entry.file fc.1) :: r.1, r.2))) = some out := h
          rw [Option.bind_eq_some] at h2
          obtain ⟨fc, hfc, h3⟩ := h2
          rw [Option.map_eq_some'] at h3
          obtain ⟨r, hr, h4⟩ := h3
          rw [← h4]
          show (! startsDot name && entryNoDot (Entry.file fc.1)
              && entriesNoDot r.1) = true
          simp only [Bool.and_eq_true]
          exact ⟨⟨hk, rfl⟩, ihQ t rec rest txfs _ r hrest hr⟩
        | dir c =>
          have h2 : (dirCommit fuel t rec c).bind (fun cr =>
              (commitChildren fuel t rec rest txfs canon).map
                (fun r => ((name, Entry.dir cr.1) :: r.1, r.2))) = some out := h
          rw [Option.bind_eq_some] at h2
          obtain ⟨cr, hcr, h3⟩ := h2
          rw [Option.map_eq_some'] at h3
          obtain ⟨r, hr, h4⟩ := h3
          rw [← h4]
          show (! startsDot name && entryNoDot (Entry.dir cr.1)
              && entriesNoDot r.1) = true
          simp only [Bool.and_eq_true]
          exact ⟨⟨hk, ihP t rec c cr he hcr⟩, ihQ t rec rest txfs canon r hrest hr⟩

theorem rollback_noDot_aux :
    ∀ (fuel : Nat),
      (∀ (t : TxnId) (rec : Bool) (d d2 : DirState),
        dirNoDot d = true → dirRollback fuel t rec d = some d2 → dirNoDot d2 = true)
      ∧ (∀ (t : TxnId) (rec : Bool) (es : List (Ident × Entry))
          (txfs : List (Ident × List (TxnId × Bytes)))
          (out : List (Ident × Entry) × List (Ident × List (TxnId × Bytes))),
          entriesNoDot es = true → rollbackChildren fuel t rec es txfs = some out →
          entriesNoDot out.1 = true) := by
  intro fuel
  induction fuel with
  | zero =>
    constructor
    · intro t rec d d2 _ h
      simp [dirRollback] at h
    · intro t rec es txfs out _ h
      simp [rollbackChildren] at h
  | succ fuel ih =>
    obtain ⟨ihP, ihQ⟩ := ih
    constructor
    · intro t rec d d2 hnd h
      obtain ⟨h1, h2, h3⟩ := dirNoDot_fields hnd
      cases rec with
      | false =>
        have h4 : some ((⟨d.entriesC, aremove t d.entriesP, d.entriesR, d.entriesF,
            d.canon, d.txfs, d.txfsOnDisk⟩ : DirState)) = some d2 := h
        injection h4 with h5
        rw [← h5]
        exact dirNoDot_intro h1 (pendingNoDot_filterL h2) h3
      | true =>
        have h4 : (rollbackChildren fuel t true d.entriesC d.txfs).map
            (fun rc => (⟨rc.1, aremove t d.entriesP, d.entriesR, d.entriesF,
                d.canon, rc.2, d.txfsOnDisk⟩ : DirState)) = some d2 := h
        rw [Option.map_eq_some'] at h4
        obtain ⟨rc, hrc, heq⟩ := h4
        rw [← heq]
        exact dirNoDot_intro (ihQ t true d.entriesC d.txfs rc h1 hrc)
          (pendingNoDot_filterL h2) h3
    · intro t rec es txfs out hnd h
      cases es with
      | nil =>
        have h2 : some (([] : List (Ident × Entry)), txfs) = some out := h
        injection h2 with h2e
        rw [← h2e]
        rfl
      | cons p rest =>
        rcases p with ⟨name, e⟩
        have hnd2 : (! startsDot name && entryNoDot e && entriesNoDot rest)
            = true := hnd
        simp only [Bool.and_eq_true] at hnd2
        obtain ⟨⟨hk, he⟩, hrest⟩ := hnd2
        cases e with
        | file lock =>
          have h2 : ((rollbackChildren fuel t rec rest
              (if (fileRollbackCore lock t).2
               then aset name (aremove t ((alookup name txfs).getD [])) txfs else txfs)).map
              (fun r2 => ((name, Entry.file (fileRollbackCore lock t).1) :: r2.1, r2.2)))
              = some out := h
          rw [Option.map_eq_some'] at h2
          obtain ⟨r2, hr2, heq⟩ := h2
          rw [← heq]
          show (! startsDot name
              && entryNoDot (Entry.file (fileRollbackCore lock t).1)
              && entriesNoDot r2.1) = true
          simp only [Bool.and_eq_true]
          exact ⟨⟨hk, rfl⟩, ihQ t rec rest _ r2 hrest hr2⟩
        | dir c =>
          have h2 : ((dirRollback fuel t rec c).bind (fun c2 =>
              (rollbackChildren fuel t rec rest txfs).map
                (fun r2 => ((name, Entry.dir c2) :: r2.1, r2.2)))) = some out := h
          rw [Option.bind_eq_some] at h2
          obtain ⟨c2, hc2, h3⟩ := h2
          rw [Option.map_eq_some'] at h3
          obtain ⟨r2, hr2, h4⟩ := h3
          rw [← h4]
          show (! startsDot name && entryNoDot (Entry.dir c2)
              && entriesNoDot r2.1) = true
          simp only [Bool.and_eq_true]
          exact ⟨⟨hk, ihP t rec c c2 he hc2⟩, ihQ t rec rest txfs r2 hrest hr2⟩

theorem finalize_noDot {d : DirState} {t : TxnId} (h : dirNoDot d = true) :
    dirNoDot (Dir.finalize d t).1 = true := by
  obtain ⟨h1, h2, h3⟩ := dirNoDot_fields h
  cases hf : d.entriesF with
  | some f =>
    by_cases hlt : t < f
    · have hD : Dir.finalize d t = (d, false) := by
        unfold Dir.finalize DirSt.mapFinalize
        rw [hf]
        dsimp only
        rw [if_pos hlt]
      rw [hD]
      exact h
    · have hD : (Dir.finalize d t).1.entriesC = d.entriesC
          ∧ (Dir.finalize d t).1.entriesP = d.entriesP.filter (fun p => decide (t < p.1))
          ∧ (Dir.finalize d t).1.entriesR = d.entriesR.filter (fun p => decide (t < p.1)) := by
        unfold Dir.finalize DirSt.mapFinalize
        rw [hf]
        dsimp only
        rw [if_neg hlt]
        exact ⟨rfl, rfl, rfl⟩
      refine dirNoDot_intro ?_ ?_ ?_
      · rw [hD.1]
        exact h1
      · rw [hD.2.1]
        exact pendingNoDot_filterL h2
      · rw [hD.2.2]
        exact allFilter h3
  | none =>
    have hD : (Dir.finalize d t).1.entriesC = d.entriesC
        ∧ (Dir.finalize d t).1.entriesP = d.entriesP.filter (fun p => decide (t < p.1))
        ∧ (Dir.finalize d t).1.entriesR = d.entriesR.filter (fun p => decide (t < p.1)) := by
      unfold Dir.finalize DirSt.mapFinalize
      rw [hf]
      exact ⟨rfl, rfl, rfl⟩
    refine dirNoDot_intro ?_ ?_ ?_
    · rw [hD.1]
      exact h1
    · rw [hD.2.1]
      exact pendingNoDot_filterL h2
    · rw [hD.2.2]
      exact allFilter h3

/-- C9: no name beginning with a dot ever appears as a user entry.
`Dir::load` installs only non-dot children into the MVCC map (in particular
`.txfs` is skipped); any lookup of the visible entries at any txn yields only
non-dot names; and the no-dot invariant on the map state (committed entries,
recorded deltas and reservations, recursively through sub-directories) is
preserved by `create_dir` and `create_file` (whose names are validated
identifiers that do not begin with a dot), `delete`, `truncate`, `commit`,
`rollback` and `finalize`. -/
theorem no_dot_user_entries :
    (∀ (t : TxnId) (cs : List (Ident × DTree)), dirNoDot (dirLoad t cs) = true)
    ∧ (∀ (d : DirState) (t : TxnId) (n : Ident) (e : Entry),
        dirNoDot d = true → alookup n (d.visible t) = some e →
        startsDot n = false)
    ∧ (∀ (d : DirState) (t : TxnId) (name : Ident),
        dirNoDot d = true → startsDot name = false →
        dirNoDot (Dir.createDir d t name).1 = true)
    ∧ (∀ (d : DirState) (t : TxnId) (name : Ident) (contents : Bytes),
        dirNoDot d = true → startsDot name = false →
        dirNoDot (Dir.createFile d t name contents).1 = true)
    ∧ (∀ (fuel : Nat) (t : TxnId) (d : DirState) (name : Ident)
        (out : DirState × Option Entry × Bool),
        dirNoDot d = true → Dir.delete fuel t d name = some out →
        dirNoDot out.1 = true)
    ∧ (∀ (fuel : Nat) (t : TxnId) (d : DirState) (out : DirState × List (Ident × Entry)),
        dirNoDot d = true → dirTruncate fuel t d = some out → dirNoDot out.1 = true)
    ∧ (∀ (fuel : Nat) (t : TxnId) (rec : Bool) (d : DirState) (out : DirState × Bool),
        dirNoDot d = true → dirCommit fuel t rec d = some out → dirNoDot out.1 = true)
    ∧ (∀ (fuel : Nat) (t : TxnId) (rec : Bool) (d d2 : DirState),
        dirNoDot d = true → dirRollback fuel t rec d = some d2 → dirNoDot d2 = true)
    ∧ (∀ (d : DirState) (t : TxnId),
        dirNoDot d = true → dirNoDot (Dir.finalize d t).1 = true) :=
  ⟨dirLoad_noDot,
   fun _ _ _ _ hd hl => (entriesNoDot_lookup (visible_noDotL hd) hl).1,
   fun _ _ _ hd hn => createDir_noDot hd hn,
   fun _ _ _ _ hd hn => createFile_noDot hd hn,
   fun _ _ _ _ _ hd h => delete_noDot hd h,
   fun _ _ _ _ hd h => truncate_noDot hd h,
   fun fuel t rec d out hd h => (commit_noDot_aux fuel).1 t rec d out hd h,
   fun fuel t rec d d2 hd h => (rollback_noDot_aux fuel).1 t rec d d2 hd h,
   fun _ _ hd => finalize_noDot hd⟩

/-- Witness for C9 at concrete states: loading a canonical directory holding
`.txfs` and a user file `f` yields a dot-free map, and a visible lookup of
`f` in `dirEx` certifies that its name does not begin with a dot. -/
theorem no_dot_user_entries_witness :
    dirNoDot (dirLoad 1 [(".txfs", DTree.dir []), ("f", DTree.file [7])]) = true
    ∧ dirNoDot dirEx = true
    ∧ alookup "f" (dirEx.visible 1) = some (Entry.file (SLock.new 1))
    ∧ startsDot "f" = false :=
  ⟨no_dot_user_entries.1 1 [(".txfs", DTree.dir []), ("f", DTree.file [7])],
   by decide,
   rfl,
   no_dot_user_entries.2.1 dirEx 1 "f" (Entry.file (SLock.new 1))
     (by decide) rfl⟩

end Txfs
